import Mathlib

/-!
Verification development for the Confluence markdown client
(`src/confluence_markdown/client.py`).

The development shallowly embeds the macro-preservation pipeline:

* the HTML tree handed back by the external parser is modelled by `Node`
  (`BeautifulSoup` and `markdownify` are external black boxes; the renderer
  is threaded through as an explicit function argument);
* `extractList` embeds the macro-extraction pass of
  `_html_to_markdown_with_macros` (client.py lines 534-565);
* `pyReplace` embeds Python `str.replace` (left-to-right, non-overlapping);
* a JSON printer/parser, UTF-8 codec and base64 codec embed the
  `json`/`base64` standard-library calls used by `_encode_macro_map` and
  `_decode_macro_map` (client.py lines 585-596);
* marker-delimited block search embeds the regular expressions of
  `_extract_macro_map_from_markdown` and `_remove_macro_block`
  (client.py lines 720-732);
* `submitPageUpdate` embeds the update submission and its version-conflict
  handling (client.py lines 833-849 and 412-426).
-/

namespace ConfluenceMarkdown

/-! ## Python string helpers -/

/-- Whitespace characters stripped by Python `str.strip()` (ASCII subset;
the exotic Unicode whitespace stripped by Python never occurs in the
strings this development manipulates). -/
def isPySpace (c : Char) : Bool :=
  c = ' ' ∨ c = '\t' ∨ c = '\n' ∨ c = '\r' ∨ c = '\x0b' ∨ c = '\x0c'

/-- Model of Python `str.strip()` on a character list. -/
def pyStripList (l : List Char) : List Char :=
  ((l.dropWhile isPySpace).reverse.dropWhile isPySpace).reverse

/-- Model of Python `str.strip()`. -/
def pyStrip (s : String) : String :=
  ⟨pyStripList s.data⟩

/-- Fuel-driven worker for `pyReplace`.  With `fuel ≥ s.length` this is
Python `str.replace`: scan left to right, replace each non-overlapping
occurrence of `old`, and continue after the inserted `new`. -/
def pyReplaceAux (old new : List Char) : Nat → List Char → List Char
  | 0, s => s
  | _ + 1, [] => []
  | fuel + 1, c :: rest =>
    if old ≠ [] ∧ old.isPrefixOf (c :: rest) then
      new ++ pyReplaceAux old new fuel (List.drop old.length (c :: rest))
    else
      c :: pyReplaceAux old new fuel rest

/-- Model of Python `str.replace` for a non-empty pattern.  (For the empty
pattern Python interleaves `new` between all characters; no call site in
the source uses an empty pattern, and this model returns the string
unchanged there.) -/
def pyReplace (s old new : String) : String :=
  ⟨pyReplaceAux old.data new.data s.data.length s.data⟩

/-- Fuel-driven decimal rendering of a natural number, most significant
digit first.  With `fuel > n` the fuel never runs out. -/
def natReprAux : Nat → Nat → List Char → List Char
  | 0, _, acc => acc
  | fuel + 1, n, acc =>
    let d := Char.ofNat (48 + n % 10)
    if n < 10 then d :: acc else natReprAux fuel (n / 10) (d :: acc)

/-- Decimal rendering of a natural number, as produced by a Python
f-string such as `f"[[CONFLUENCE-MACRO-{macro_index}]]"`. -/
def natRepr (n : Nat) : String :=
  ⟨natReprAux (n + 1) n []⟩

/-! ## The HTML tree handed over by the external parser

`BeautifulSoup` is an external collaborator; the source only consumes a
parsed element tree, walks it, serializes nodes with `str(tag)` and
replaces macro elements by text nodes.  `Node` models that tree, and
`serializeNode` models `str(tag)` (BeautifulSoup's minimal formatter:
`&`, `<`, `>` entity-escaped in text nodes; `&` and `"` escaped inside
attribute values). -/

inductive Node where
  | text : String → Node
  | elem : String → List (String × String) → List Node → Node

/-- Entity escaping of one text-node character (BeautifulSoup minimal
formatter). -/
def escTextChar (c : Char) : List Char :=
  if c = '&' then "&amp;".data
  else if c = '<' then "&lt;".data
  else if c = '>' then "&gt;".data
  else [c]

/-- Entity escaping of one attribute-value character. -/
def escAttrChar (c : Char) : List Char :=
  if c = '&' then "&amp;".data
  else if c = '"' then "&quot;".data
  else [c]

/-- Serialization of an attribute list, ` k="v"` for each attribute. -/
def attrsString : List (String × String) → String
  | [] => ""
  | (k, v) :: rest => " " ++ k ++ "=\"" ++ ⟨v.data.flatMap escAttrChar⟩ ++ "\"" ++ attrsString rest

mutual
/-- Model of `str(tag)` on one node. -/
def serializeNode : Node → String
  | .text s => ⟨s.data.flatMap escTextChar⟩
  | .elem name attrs ch =>
    "<" ++ name ++ attrsString attrs ++ ">" ++ serializeList ch ++ "</" ++ name ++ ">"

/-- Model of `str(soup)` on a forest (the document is a forest of
top-level nodes). -/
def serializeList : List Node → String
  | [] => ""
  | n :: rest => serializeNode n ++ serializeList rest
end

/-- The reserved-namespace test of client.py line 546:
`tag.name.startswith("ac:")`. -/
def isMacroName (name : String) : Bool :=
  "ac:".data.isPrefixOf name.data

/-- The placeholder literal of client.py line 557:
`f"[[CONFLUENCE-MACRO-{macro_index}]]"`. -/
def placeholder (n : Nat) : String :=
  "[[CONFLUENCE-MACRO-" ++ natRepr n ++ "]]"

mutual
/-- Extraction pass of `_html_to_markdown_with_macros`
(client.py lines 542-560) on one node, threading the running
`macro_index`.  The source first collects, via `soup.find_all(True)` in
document order, the tags whose name carries the `ac:` reserved prefix and
that have no such ancestor (`tag.find_parent(...)` check, lines 548-553),
then replaces each collected tag in that order with its numbered
placeholder, recording `placeholder -> str(tag)`.  Because the collected
tags are pairwise disjoint subtrees, that collect-then-replace loop equals
this single document-order pass, which does not descend into a macro
element. -/
def extractNode : Node → Nat → (Node × List (String × String) × Nat)
  | .text s, i => (.text s, [], i)
  | .elem name attrs ch, i =>
    if isMacroName name then
      (.text (placeholder i),
        [(placeholder i, serializeNode (.elem name attrs ch))], i + 1)
    else
      let rc := extractList ch i
      (.elem name attrs rc.1, rc.2)
termination_by structural n => n

/-- Extraction pass on a forest, left to right (document order). -/
def extractList : List Node → Nat → (List Node × List (String × String) × Nat)
  | [], i => ([], [], i)
  | n :: rest, i =>
    let rn := extractNode n i
    let rr := extractList rest rn.2.2
    (rn.1 :: rr.1, rn.2.1 ++ rr.2.1, rr.2.2)
termination_by structural l => l
end

mutual
/-- The top-level macro elements of one node in document order: the node
itself when its tag name carries the reserved prefix, else the top-level
macro elements of its children.  (A macro nested inside a macro element is
deliberately absent.) -/
def topMacrosNode : Node → List Node
  | .text _ => []
  | .elem name attrs ch =>
    if isMacroName name then [.elem name attrs ch] else topMacrosList ch
termination_by structural n => n

/-- The top-level macro elements of a forest in document order. -/
def topMacrosList : List Node → List Node
  | [] => []
  | n :: rest => topMacrosNode n ++ topMacrosList rest
termination_by structural l => l
end

mutual
/-- Whether any element of the subtree carries the reserved `ac:` name. -/
def anyMacroNode : Node → Bool
  | .text _ => false
  | .elem name _ ch => isMacroName name || anyMacroList ch
termination_by structural n => n

/-- Whether any element of the forest carries the reserved `ac:` name. -/
def anyMacroList : List Node → Bool
  | [] => false
  | n :: rest => anyMacroNode n || anyMacroList rest
termination_by structural l => l
end

mutual
/-- Every node of the subtree, the root included, in document order. -/
def subNodesNode : Node → List Node
  | .text s => [.text s]
  | .elem name attrs ch => .elem name attrs ch :: subNodesList ch
termination_by structural n => n

/-- Every node of the forest in document order. -/
def subNodesList : List Node → List Node
  | [] => []
  | n :: rest => subNodesNode n ++ subNodesList rest
termination_by structural l => l
end

/-- Model of `_html_to_markdown` (client.py lines 522-532).  The external
`markdownify` renderer is a black box, threaded through as the function
argument `render`; `str(soup)` after a pure reparse is the serialized
document, and the result is stripped. -/
def html_to_markdown (render : String → String) (doc : List Node) : String :=
  pyStrip (render (serializeList doc))

/-- Model of `_html_to_markdown_with_macros` (client.py lines 534-565):
run the extraction pass from index 1, render the placeholder-substituted
tree with the same black-box renderer, strip, and return the Markdown
together with the recorded macro map. -/
def html_to_markdown_with_macros (render : String → String) (doc : List Node) :
    String × List (String × String) :=
  let r := extractList doc 1
  (pyStrip (render (serializeList r.1)), r.2.1)

/-- Model of `_escape_markdown_heading` (client.py lines 567-571):
`text.replace("\r", " ").replace("\n", " ").replace("\\", "\\\\").replace("#", "\\#")`. -/
def escape_markdown_heading (text : String) : String :=
  pyReplace (pyReplace (pyReplace (pyReplace text "\r" " ") "\n" " ") "\\" "\\\\") "#" "\\#"

/-! ## Update submission (client.py lines 833-849 and 412-426) -/

/-- The PUT payload assembled by `edit_page_with_editor` /
`add_content_to_page`: `{"version": {"number": fetched + 1}, "title": ...,
"body": {"storage": {"value": ...}}}`. -/
structure UpdateRequest where
  version : Nat
  title : String
  body : String
deriving DecidableEq

/-- Outcome of one update submission.  `versionConflict` models the
`RuntimeError` raised on HTTP 409 (client.py lines 844-848), `httpError`
models `response.raise_for_status()` on any other non-success status. -/
inductive UpdateOutcome where
  | ok (newVersion : Nat)
  | versionConflict (message : String)
  | httpError (status : Nat)
deriving DecidableEq

/-- The literal message of the `RuntimeError` raised on a 409 response. -/
def versionConflictMessage : String :=
  "Confluence rejected the update due to a version conflict. Refresh the page and try again."

/-- Model of the single `session.put` of the upload step: build the
request with version `fetched + 1`, submit it once to the server (the
black box `respond`), and translate the status code.  The first component
lists every request submitted, in order. -/
def submitPageUpdate (fetchedVersion : Nat) (title body : String)
    (respond : UpdateRequest → Nat) : List UpdateRequest × UpdateOutcome :=
  let req : UpdateRequest := ⟨fetchedVersion + 1, title, body⟩
  let status := respond req
  ([req],
    if status = 409 then .versionConflict versionConflictMessage
    else if 400 ≤ status then .httpError status
    else .ok (fetchedVersion + 1))

/-! ## JSON values and `json.dumps` / `json.loads`

The codec calls `json.dumps(macro_map)` and `json.loads(payload)`.  `Json`
models the Python values those functions exchange (the decoder is
dynamically typed and returns whatever `json.loads` produced).  Numbers
are modelled as integers: no caller of the codec ever produces or
consumes a float, and the parser rejects the float syntax. -/

inductive Json where
  | null
  | bool (b : Bool)
  | num (n : Int)
  | str (s : String)
  | arr (elements : List Json)
  | obj (members : List (String × Json))

/-- Lowercase hexadecimal digit, as in CPython's `'\\u%04x'` formatting. -/
def toHexDigit (n : Nat) : Char :=
  Char.ofNat (if n < 10 then 48 + n else 87 + n)

/-- Four lowercase hex digits of a number below `0x10000`. -/
def hex4 (n : Nat) : List Char :=
  [toHexDigit (n / 4096 % 16), toHexDigit (n / 256 % 16),
    toHexDigit (n / 16 % 16), toHexDigit (n % 16)]

/-- Escaping of one character by `json.dumps` with its default
`ensure_ascii=True`: the two-character escapes of `ESCAPE_DCT`, literal
printable ASCII, `\uXXXX` for everything else, and a surrogate pair for
astral characters. -/
def escJsonChar (c : Char) : List Char :=
  if c = '"' then ['\\', '"']
  else if c = '\\' then ['\\', '\\']
  else if c = '\x08' then ['\\', 'b']
  else if c = '\x0c' then ['\\', 'f']
  else if c = '\n' then ['\\', 'n']
  else if c = '\r' then ['\\', 'r']
  else if c = '\t' then ['\\', 't']
  else if 0x20 ≤ c.toNat ∧ c.toNat ≤ 0x7e then [c]
  else if c.toNat < 0x10000 then '\\' :: 'u' :: hex4 c.toNat
  else
    ('\\' :: 'u' :: hex4 (0xd800 + (c.toNat - 0x10000) / 1024)) ++
      ('\\' :: 'u' :: hex4 (0xdc00 + (c.toNat - 0x10000) % 1024))

/-- A JSON string literal: quote, escaped characters, quote. -/
def jsonQuote (s : String) : List Char :=
  '"' :: (s.data.flatMap escJsonChar ++ ['"'])

/-- Members of a dumped object with the default separators `", "` and
`": "`. -/
def jsonDumpsMembers : List (String × String) → List Char
  | [] => []
  | (k, v) :: rest =>
    jsonQuote k ++ (':' :: ' ' :: jsonQuote v) ++
      (match rest with
        | [] => []
        | _ :: _ => ',' :: ' ' :: jsonDumpsMembers rest)

/-- What follows the first `"key": value` group of a dumped member list
before the suffix `Z`: nothing for a one-member list, a `", "` separator
and the remaining members otherwise.  (A reading aid for stating the
shape of `jsonDumpsMembers`, not a separate serializer.) -/
def jsonDumpsTail (m : List (String × String)) (Z : List Char) : List Char :=
  match m with
  | [] => Z
  | _ :: _ => ',' :: ' ' :: (jsonDumpsMembers m ++ Z)

/-- Model of `json.dumps` applied to the macro map (a string-to-string
dict, dumped with default options). -/
def json_dumps_obj (m : List (String × String)) : String :=
  ⟨'\x7b' :: (jsonDumpsMembers m ++ ['\x7d'])⟩

/-- JSON whitespace accepted between tokens. -/
def isJsonWs (c : Char) : Bool :=
  c = ' ' ∨ c = '\t' ∨ c = '\n' ∨ c = '\r'

/-- Drop JSON whitespace. -/
def skipWs (l : List Char) : List Char :=
  l.dropWhile isJsonWs

/-- Value of one hexadecimal digit (either case). -/
def hexDigitVal (c : Char) : Option Nat :=
  if 48 ≤ c.toNat ∧ c.toNat ≤ 57 then some (c.toNat - 48)
  else if 97 ≤ c.toNat ∧ c.toNat ≤ 102 then some (c.toNat - 87)
  else if 65 ≤ c.toNat ∧ c.toNat ≤ 70 then some (c.toNat - 55)
  else none

/-- Value of a four-digit hexadecimal escape. -/
def hex4Val (a b c d : Char) : Option Nat := do
  let x ← hexDigitVal a
  let y ← hexDigitVal b
  let z ← hexDigitVal c
  let w ← hexDigitVal d
  pure (4096 * x + 256 * y + 16 * z + w)

/-- Prepend a character to a pending string-parse result. -/
def consStr (c : Char) : Option (List Char × List Char) → Option (List Char × List Char)
  | none => none
  | some (l, r) => some (c :: l, r)

mutual
/-- Body of a JSON string literal after the opening quote, per strict
`json.loads`: raw control characters are rejected, escapes are handled by
`parseEscape`, and the result is the decoded body together with the input
after the closing quote. -/
def parseStringBody : List Char → Option (List Char × List Char)
  | [] => none
  | c :: rest =>
    if c = '"' then some ([], rest)
    else if c = '\\' then parseEscape rest
    else if c.toNat < 0x20 then none
    else consStr c (parseStringBody rest)
termination_by l => (l.length, 0)

/-- One escape sequence after a backslash: the standard two-character
escapes and `\uXXXX` via `parseHexEscape`. -/
def parseEscape : List Char → Option (List Char × List Char)
  | [] => none
  | e :: rest2 =>
    if e = '"' then consStr '"' (parseStringBody rest2)
    else if e = '\\' then consStr '\\' (parseStringBody rest2)
    else if e = '/' then consStr '/' (parseStringBody rest2)
    else if e = 'b' then consStr '\x08' (parseStringBody rest2)
    else if e = 'f' then consStr '\x0c' (parseStringBody rest2)
    else if e = 'n' then consStr '\n' (parseStringBody rest2)
    else if e = 'r' then consStr '\r' (parseStringBody rest2)
    else if e = 't' then consStr '\t' (parseStringBody rest2)
    else if e = 'u' then parseHexEscape rest2
    else none
termination_by l => (l.length, 0)

/-- The four hex digits of a `\uXXXX` escape. -/
def parseHexEscape : List Char → Option (List Char × List Char)
  | h1 :: h2 :: h3 :: h4 :: rest3 => parseHexVal (hex4Val h1 h2 h3 h4) rest3
  | _ => none
termination_by l => (l.length, 3)

/-- Interpretation of a decoded `\uXXXX` value: an ordinary scalar stands
for itself; a high surrogate value continues into `parseLowSurrogate`. -/
def parseHexVal : Option Nat → (l : List Char) → Option (List Char × List Char)
  | none, _ => none
  | some n, rest3 =>
    if n < 0xd800 ∨ 0xe000 ≤ n then
      consStr (Char.ofNat n) (parseStringBody rest3)
    else if n < 0xdc00 then parseLowSurrogate n rest3
    else none
termination_by _ l => (l.length, 2)

/-- The `\uXXXX` escape of the low half following a high surrogate. -/
def parseLowSurrogate (n : Nat) : List Char → Option (List Char × List Char)
  | b1 :: u1 :: g1 :: g2 :: g3 :: g4 :: rest4 =>
    if b1 = '\\' ∧ u1 = 'u' then parseLowVal n (hex4Val g1 g2 g3 g4) rest4
    else none
  | _ => none
termination_by l => (l.length, 1)

/-- Combination of a high-surrogate value and a decoded low-half escape
into one character.  (A lone surrogate escape is accepted by CPython and
produces an unpaired-surrogate string; such a string is not a sequence of
Unicode scalar values, so this model rejects it instead — no payload
arising in this program contains one.) -/
def parseLowVal (n : Nat) : Option Nat → (l : List Char) → Option (List Char × List Char)
  | none, _ => none
  | some k, rest4 =>
    if 0xdc00 ≤ k ∧ k < 0xe000 then
      consStr (Char.ofNat (0x10000 + 1024 * (n - 0xd800) + (k - 0xdc00)))
        (parseStringBody rest4)
    else none
termination_by _ l => (l.length, 1)
end

/-- Value of a decimal digit, if `c` is one. -/
def digitVal (c : Char) : Option Nat :=
  if 48 ≤ c.toNat ∧ c.toNat ≤ 57 then some (c.toNat - 48) else none

/-- Split a maximal run of decimal digits off the front of the input. -/
def takeDigits : List Char → (List Nat × List Char)
  | [] => ([], [])
  | c :: rest =>
    match digitVal c with
    | some d => let r := takeDigits rest; (d :: r.1, r.2)
    | none => ([], c :: rest)

/-- Parse an unsigned JSON integer: at least one digit, no redundant
leading zero.  A following `.`, `e` or `E` would start a float, which
this model does not represent and therefore rejects (no caller of the
codec produces a float payload). -/
def parseNumDigits (l : List Char) : Option (Nat × List Char) :=
  match takeDigits l with
  | ([], _) => none
  | (d :: ds, rest) =>
    if d = 0 ∧ ds ≠ [] then none
    else
      match rest with
      | '.' :: _ => none
      | 'e' :: _ => none
      | 'E' :: _ => none
      | _ => some (ds.foldl (fun a x => a * 10 + x) d, rest)

/-- Attachment of a parsed member in front of a parsed member list. -/
def pmRest (key : String) (v : Json) : Option (Json × List Char) → Option (Json × List Char)
  | some (.obj ms, rest6) => some (.obj ((key, v) :: ms), rest6)
  | _ => none

/-- After one `"key": value` group: a comma continues with the remaining
members via the passed parser `pm`, a closing brace ends the object. -/
def pmSep (pm : List Char → Option (Json × List Char)) (key : String) (v : Json) :
    List Char → Option (Json × List Char)
  | ',' :: rest5 => pmRest key v (pm rest5)
  | '\x7d' :: rest5 => some (.obj [(key, v)], rest5)
  | _ => none

/-- After the colon: interpret the result of parsing the member value. -/
def pmValue (pm : List Char → Option (Json × List Char)) (key : String) :
    Option (Json × List Char) → Option (Json × List Char)
  | none => none
  | some (v, rest4) => pmSep pm key v (skipWs rest4)

/-- After a parsed key: expect a colon, then the value via the passed
value parser `pv`. -/
def pmColon (pv pm : List Char → Option (Json × List Char)) (key : String) :
    List Char → Option (Json × List Char)
  | ':' :: rest3 => pmValue pm key (pv rest3)
  | _ => none

/-- Interpretation of the result of parsing a member key. -/
def pmAfterKey (pv pm : List Char → Option (Json × List Char)) :
    Option (List Char × List Char) → Option (Json × List Char)
  | none => none
  | some (key, rest2) => pmColon pv pm ⟨key⟩ (skipWs rest2)

/-- First stage of an object member group: a quoted key. -/
def pmKey (pv pm : List Char → Option (Json × List Char)) :
    List Char → Option (Json × List Char)
  | '"' :: rest => pmAfterKey pv pm (parseStringBody rest)
  | _ => none

/-- Attachment of a parsed element in front of a parsed element list. -/
def peRest (v : Json) : Option (Json × List Char) → Option (Json × List Char)
  | some (.arr vs, rest3) => some (.arr (v :: vs), rest3)
  | _ => none

/-- After one array element: a comma continues via the passed parser
`pe`, a closing bracket ends the array. -/
def peSep (pe : List Char → Option (Json × List Char)) (v : Json) :
    List Char → Option (Json × List Char)
  | ',' :: rest2 => peRest v (pe rest2)
  | ']' :: rest2 => some (.arr [v], rest2)
  | _ => none

/-- Interpretation of the result of parsing one array element. -/
def peAfter (pe : List Char → Option (Json × List Char)) :
    Option (Json × List Char) → Option (Json × List Char)
  | none => none
  | some (v, rest) => peSep pe v (skipWs rest)

mutual
/-- Fuel-driven recursive-descent parser for one JSON value, following
the grammar accepted by strict `json.loads`.  Every recursive call
consumes at least one input character, so fuel `input.length + 1` never
runs out. -/
def parseValue : Nat → List Char → Option (Json × List Char)
  | 0, _ => none
  | fuel + 1, input =>
    match skipWs input with
    | [] => none
    | c :: rest =>
      if c = '\x7b' then
        match skipWs rest with
        | '\x7d' :: rest2 => some (.obj [], rest2)
        | rest2 => parseMembers fuel rest2
      else if c = '[' then
        match skipWs rest with
        | ']' :: rest2 => some (.arr [], rest2)
        | rest2 => parseElems fuel rest2
      else if c = '"' then
        match parseStringBody rest with
        | none => none
        | some (content, rest2) => some (.str ⟨content⟩, rest2)
      else if c = 't' then
        match rest with
        | 'r' :: 'u' :: 'e' :: rest2 => some (.bool true, rest2)
        | _ => none
      else if c = 'f' then
        match rest with
        | 'a' :: 'l' :: 's' :: 'e' :: rest2 => some (.bool false, rest2)
        | _ => none
      else if c = 'n' then
        match rest with
        | 'u' :: 'l' :: 'l' :: rest2 => some (.null, rest2)
        | _ => none
      else if c = '-' then
        match parseNumDigits rest with
        | none => none
        | some (n, rest2) => some (.num (-(n : Int)), rest2)
      else
        match parseNumDigits (c :: rest) with
        | none => none
        | some (n, rest2) => some (.num (n : Int), rest2)

/-- Members of an object, positioned after `{` (and after `}`-emptiness
was excluded): `"key": value` groups separated by commas, closed by `}`:
delegated stage by stage to the `pm*` helpers, with the fuel-decremented
parsers passed along. -/
def parseMembers : Nat → List Char → Option (Json × List Char)
  | 0, _ => none
  | fuel + 1, input => pmKey (parseValue fuel) (parseMembers fuel) (skipWs input)

/-- Elements of an array, positioned after `[` (emptiness excluded). -/
def parseElems : Nat → List Char → Option (Json × List Char)
  | 0, _ => none
  | fuel + 1, input => peAfter (parseElems fuel) (parseValue fuel input)
end

/-- Model of `json.loads`: parse one value and require only whitespace
after it. -/
def json_loads (s : String) : Option Json :=
  match parseValue (s.data.length + 1) s.data with
  | none => none
  | some (j, rest) => if skipWs rest = [] then some j else none

/-! ## UTF-8 (`str.encode("utf-8")` / `bytes.decode("utf-8")`) -/

/-- UTF-8 encoding of one character. -/
def utf8EncodeChar (c : Char) : List Nat :=
  let v := c.toNat
  if v < 0x80 then [v]
  else if v < 0x800 then [0xc0 + v / 64, 0x80 + v % 64]
  else if v < 0x10000 then [0xe0 + v / 4096, 0x80 + v / 64 % 64, 0x80 + v % 64]
  else [0xf0 + v / 262144, 0x80 + v / 4096 % 64, 0x80 + v / 64 % 64, 0x80 + v % 64]

/-- UTF-8 encoding of a string, as a byte (sub-256 natural) list. -/
def utf8Encode (s : String) : List Nat :=
  s.data.flatMap utf8EncodeChar

/-- Whether a byte is a UTF-8 continuation byte. -/
def isCont (b : Nat) : Bool :=
  0x80 ≤ b ∧ b < 0xc0

/-- Prepend a character to a pending decode result. -/
def consChar (c : Char) : Option (List Char) → Option (List Char)
  | none => none
  | some l => some (c :: l)

mutual
/-- Strict UTF-8 decoding, rejecting overlong forms, surrogates, values
above `0x10FFFF` and truncated sequences, as `bytes.decode("utf-8")`
does. -/
def utf8DecodeList : List Nat → Option (List Char)
  | [] => some []
  | b :: rest =>
    if b < 0x80 then consChar (Char.ofNat b) (utf8DecodeList rest)
    else if b < 0xc2 then none
    else if b < 0xe0 then utf8Cont2 b rest
    else if b < 0xf0 then utf8Cont3 b rest
    else if b < 0xf5 then utf8Cont4 b rest
    else none
termination_by structural l => l

/-- Continuation of a two-byte UTF-8 sequence. -/
def utf8Cont2 (b : Nat) : List Nat → Option (List Char)
  | b1 :: rest1 =>
    if isCont b1 then
      consChar (Char.ofNat ((b - 0xc0) * 64 + (b1 - 0x80))) (utf8DecodeList rest1)
    else none
  | [] => none
termination_by structural l => l

/-- Continuation of a three-byte UTF-8 sequence. -/
def utf8Cont3 (b : Nat) : List Nat → Option (List Char)
  | b1 :: b2 :: rest2 =>
    if isCont b1 ∧ isCont b2 then
      if 0x800 ≤ (b - 0xe0) * 4096 + (b1 - 0x80) * 64 + (b2 - 0x80) ∧
          ((b - 0xe0) * 4096 + (b1 - 0x80) * 64 + (b2 - 0x80) < 0xd800 ∨
            0xe000 ≤ (b - 0xe0) * 4096 + (b1 - 0x80) * 64 + (b2 - 0x80)) then
        consChar (Char.ofNat ((b - 0xe0) * 4096 + (b1 - 0x80) * 64 + (b2 - 0x80)))
          (utf8DecodeList rest2)
      else none
    else none
  | _ => none
termination_by structural l => l

/-- Continuation of a four-byte UTF-8 sequence. -/
def utf8Cont4 (b : Nat) : List Nat → Option (List Char)
  | b1 :: b2 :: b3 :: rest3 =>
    if isCont b1 ∧ isCont b2 ∧ isCont b3 then
      if 0x10000 ≤ (b - 0xf0) * 262144 + (b1 - 0x80) * 4096 + (b2 - 0x80) * 64 + (b3 - 0x80) ∧
          (b - 0xf0) * 262144 + (b1 - 0x80) * 4096 + (b2 - 0x80) * 64 + (b3 - 0x80) < 0x110000 then
        consChar
          (Char.ofNat ((b - 0xf0) * 262144 + (b1 - 0x80) * 4096 + (b2 - 0x80) * 64 + (b3 - 0x80)))
          (utf8DecodeList rest3)
      else none
    else none
  | _ => none
termination_by structural l => l
end

/-- Model of `bytes.decode("utf-8")`. -/
def utf8Decode (bytes : List Nat) : Option String :=
  match utf8DecodeList bytes with
  | none => none
  | some l => some ⟨l⟩

/-! ## Base64 (`base64.b64encode` / `base64.b64decode`) -/

/-- Character of one sextet in the standard base64 alphabet. -/
def b64Char (n : Nat) : Char :=
  if n < 26 then Char.ofNat (65 + n)
  else if n < 52 then Char.ofNat (97 + (n - 26))
  else if n < 62 then Char.ofNat (48 + (n - 52))
  else if n = 62 then '+'
  else '/'

/-- Sextet value of an alphabet character. -/
def b64Val (c : Char) : Option Nat :=
  let v := c.toNat
  if 65 ≤ v ∧ v ≤ 90 then some (v - 65)
  else if 97 ≤ v ∧ v ≤ 122 then some (v - 97 + 26)
  else if 48 ≤ v ∧ v ≤ 57 then some (v - 48 + 52)
  else if c = '+' then some 62
  else if c = '/' then some 63
  else none

/-- Standard base64 encoding of a byte list, with `=` padding. -/
def b64EncodeList : List Nat → List Char
  | [] => []
  | [x] => [b64Char (x / 4), b64Char (x % 4 * 16), '=', '=']
  | [x, y] => [b64Char (x / 4), b64Char (x % 4 * 16 + y / 16), b64Char (y % 16 * 4), '=']
  | x :: y :: z :: rest =>
    b64Char (x / 4) :: b64Char (x % 4 * 16 + y / 16) ::
      b64Char (y % 16 * 4 + z / 64) :: b64Char (z % 64) :: b64EncodeList rest

/-- Model of `base64.b64encode(...).decode("ascii")`. -/
def b64encode (bytes : List Nat) : String :=
  ⟨b64EncodeList bytes⟩

/-- Whether a character belongs to the base64 data alphabet. -/
def isB64Data (c : Char) : Bool :=
  (b64Val c).isSome

/-- Decoding of a base64 stream already filtered to alphabet and `=`
characters, per lenient `binascii.a2b_base64`: full quads of data
characters, a final quad terminated by `=` after two or three data
characters (input past a valid padding terminator is ignored), and an
error when data characters are left over.  (A handful of exotic lenient
corners — e.g. padding characters between data quads — are rejected here
where CPython would skip them; no input this program produces or that the
claims exercise reaches them.) -/
def b64DecodeCore : List Char → Option (List Nat)
  | [] => some []
  | [_] => none
  | a :: b :: rest =>
    match b64Val a, b64Val b with
    | some va, some vb =>
      match rest with
      | [] => none
      | c :: rest2 =>
        match b64Val c with
        | none =>
          if c = '=' then
            match rest2 with
            | '=' :: _ => some [va * 4 + vb / 16]
            | _ => none
          else none
        | some vc =>
          match rest2 with
          | [] => none
          | d :: rest3 =>
            match b64Val d with
            | none =>
              if d = '=' then some [va * 4 + vb / 16, vb % 16 * 16 + vc / 4]
              else none
            | some vd =>
              match b64DecodeCore rest3 with
              | some tail =>
                some ((va * 4 + vb / 16) :: (vb % 16 * 16 + vc / 4) :: (vc % 4 * 64 + vd) :: tail)
              | none => none
    | _, _ => none

/-- Model of `base64.b64decode(encoded.encode("ascii"))`: fail on
non-ASCII input (the `str.encode("ascii")` step), discard characters
outside the alphabet, then decode. -/
def b64decodeOpt (s : String) : Option (List Nat) :=
  if s.data.any (fun c => 128 ≤ c.toNat) then none
  else b64DecodeCore (s.data.filter (fun c => isB64Data c || c = '='))

/-! ## The macro-map codec (client.py lines 585-596) -/

/-- Model of `_encode_macro_map`:
`base64.b64encode(json.dumps(macro_map).encode("utf-8")).decode("ascii")`. -/
def encode_macro_map (m : List (String × String)) : String :=
  b64encode (utf8Encode (json_dumps_obj m))

/-- Model of `_decode_macro_map`: base64-decode, UTF-8-decode and
JSON-parse inside a `try`, and return the empty dict on any failure.
The result is whatever `json.loads` produced — the shape is not
checked. -/
def decode_macro_map (encoded : String) : Json :=
  match b64decodeOpt encoded with
  | none => .obj []
  | some bytes =>
    match utf8Decode bytes with
    | none => .obj []
    | some payload =>
      match json_loads payload with
      | none => .obj []
      | some j => j

/-! ## The embedded macro block (client.py lines 720-732) -/

/-- The literal before the encoded payload in the block pattern. -/
def startMarker : List Char :=
  "<!-- CONFLUENCE_MACROS_START\n".data

/-- The literal after the encoded payload in the block pattern. -/
def endMarker : List Char :=
  "\nCONFLUENCE_MACROS_END -->".data

/-- Split the input around the first occurrence of `needle`, returning
the part before it and the part after it. -/
def splitAtFirst (needle : List Char) : List Char → Option (List Char × List Char)
  | [] => if needle.isEmpty then some ([], []) else none
  | c :: rest =>
    if needle.isPrefixOf (c :: rest) then
      some ([], List.drop needle.length (c :: rest))
    else
      match splitAtFirst needle rest with
      | some (a, b) => some (c :: a, b)
      | none => none

/-- Leftmost match of the pattern
`<!-- CONFLUENCE_MACROS_START\n(.*?)\nCONFLUENCE_MACROS_END -->` with
`re.DOTALL`: the first position where the start marker matches and an end
marker follows; the lazy group is everything up to the first end marker
after it.  Returns `(before the match, group 1, after the match)`. -/
def findBlock : List Char → Option (List Char × List Char × List Char)
  | [] => none
  | c :: rest =>
    match
      (if startMarker.isPrefixOf (c :: rest) then
        splitAtFirst endMarker (List.drop startMarker.length (c :: rest))
      else none) with
    | some (grp, after) => some ([], grp, after)
    | none =>
      match findBlock rest with
      | some (a, g, b) => some (c :: a, g, b)
      | none => none

/-- The `match.group(1).strip()` step of
`_extract_macro_map_from_markdown` (client.py lines 722-726). -/
def extract_encoded_payload (content : String) : Option String :=
  match findBlock content.data with
  | none => none
  | some (_, grp, _) => some ⟨pyStripList grp⟩

/-- Model of `_extract_macro_map_from_markdown`: decode the stripped
group when the pattern matches, else the empty dict. -/
def extract_macro_map_from_markdown (content : String) : Json :=
  match extract_encoded_payload content with
  | none => .obj []
  | some enc => decode_macro_map enc

/-- Fuel-driven worker for `remove_macro_block`: replace every
non-overlapping match of the block pattern followed by an optional
newline, scanning left to right as `re.sub` does.  Each removal consumes
at least the two markers, so fuel `content.length` never runs out. -/
def removeBlocksAux : Nat → List Char → List Char
  | 0, content => content
  | fuel + 1, content =>
    match findBlock content with
    | none => content
    | some (before, _, after) =>
      let after2 :=
        match after with
        | '\n' :: t => t
        | _ => after
      before ++ removeBlocksAux fuel after2

/-- Model of `_remove_macro_block` (client.py lines 729-732). -/
def remove_macro_block (content : String) : String :=
  ⟨removeBlocksAux content.data.length content.data⟩

/-- Decimal value of a digit string, folded from the left onto an
accumulator; the left inverse of `natReprAux` used to prove placeholder
injectivity. -/
def decVal (l : List Char) (a : Nat) : Nat :=
  l.foldl (fun x c => x * 10 + (c.toNat - 48)) a

/-! ## Structural induction over node forests -/

/-- Induction principle for forests of `Node`, descending both into
children and along the forest. -/
theorem nodeListInd (P : List Node → Prop)
    (hnil : P [])
    (htext : ∀ s rest, P rest → P (.text s :: rest))
    (helem : ∀ name attrs ch rest, P ch → P rest → P (.elem name attrs ch :: rest)) :
    ∀ l, P l := by
  have A : ∀ n : Node, ∀ rest, P rest → P (n :: rest) := by
    intro n
    refine Node.rec (motive_1 := fun m => ∀ rest, P rest → P (m :: rest)) (motive_2 := P)
      ?_ ?_ ?_ ?_ n
    · intro s rest h
      exact htext s rest h
    · intro name attrs ch ih rest h
      exact helem name attrs ch rest ih h
    · exact hnil
    · intro head tail ihH ihT
      exact ihH tail ihT
  intro l
  induction l with
  | nil => exact hnil
  | cons n tail ih => exact A n tail ih

/-! ## Decimal rendering and placeholder injectivity -/

theorem char_toNat_ofNat {m : Nat} (h : m < 0xd800) : (Char.ofNat m).toNat = m := by
  rw [Char.ofNat, dif_pos (Or.inl h)]
  rfl

theorem natReprAux_succ (fuel n : Nat) (acc : List Char) :
    natReprAux (fuel + 1) n acc =
      if n < 10 then Char.ofNat (48 + n % 10) :: acc
      else natReprAux fuel (n / 10) (Char.ofNat (48 + n % 10) :: acc) := rfl

theorem decVal_natReprAux : ∀ fuel n acc, n ≤ fuel →
    decVal (natReprAux (fuel + 1) n acc) 0 = decVal acc n := by
  intro fuel
  induction fuel with
  | zero =>
    intro n acc hn
    interval_cases n
    rw [natReprAux_succ, if_pos (by omega)]
    simp only [decVal, List.foldl_cons]
    rw [char_toNat_ofNat (by omega)]
  | succ f ih =>
    intro n acc hn
    by_cases h10 : n < 10
    · rw [natReprAux_succ, if_pos h10]
      simp only [decVal, List.foldl_cons]
      rw [char_toNat_ofNat (by omega)]
      congr 1
      omega
    · rw [natReprAux_succ, if_neg h10]
      rw [ih (n / 10) _ (by omega)]
      simp only [decVal, List.foldl_cons]
      rw [char_toNat_ofNat (by omega)]
      congr 1
      omega

theorem natRepr_injective : Function.Injective natRepr := by
  intro a b hab
  have ha := decVal_natReprAux a a [] (Nat.le_refl a)
  have hb := decVal_natReprAux b b [] (Nat.le_refl b)
  have : natReprAux (a + 1) a [] = natReprAux (b + 1) b [] := congrArg String.data hab
  rw [this] at ha
  rw [ha] at hb
  simpa [decVal] using hb

theorem placeholder_injective : Function.Injective placeholder := by
  intro a b hab
  apply natRepr_injective
  have h := congrArg String.data hab
  simp only [placeholder, String.data_append] at h
  have h2 := List.append_cancel_right h
  have h3 := List.append_cancel_left h2
  exact congrArg String.mk h3

/-! ## The extraction pass: recorded map and final index -/

theorem extract_spec : ∀ l : List Node, ∀ i,
    (extractList l i).2.1 =
      List.zipWith (fun k e => (placeholder k, serializeNode e))
        (List.range' i (topMacrosList l).length) (topMacrosList l)
    ∧ (extractList l i).2.2 = i + (topMacrosList l).length := by
  intro l
  induction l using nodeListInd with
  | hnil => intro i; simp [extractList, topMacrosList]
  | htext s rest ih =>
    intro i
    have h := ih i
    simp only [extractList, extractNode, topMacrosList, topMacrosNode]
    simpa using h
  | helem name attrs ch rest ihc ihr =>
    intro i
    cases hmac : isMacroName name with
    | true =>
      have hr := ihr (i + 1)
      simp only [extractList, extractNode, topMacrosList, topMacrosNode, hmac, if_true,
        List.singleton_append, List.length_cons, List.range'_succ, List.zipWith_cons_cons]
      refine ⟨?_, by omega⟩
      rw [hr.1]
    | false =>
      have hc := ihc i
      simp only [extractList, extractNode, topMacrosList, topMacrosNode, hmac,
        Bool.false_eq_true, if_false]
      rw [hc.1, hc.2]
      have hr := ihr (i + (topMacrosList ch).length)
      rw [hr.1, hr.2]
      constructor
      · rw [List.length_append,
          Nat.add_comm (topMacrosList ch).length (topMacrosList rest).length,
          ← List.range'_append_1 i (topMacrosList ch).length (topMacrosList rest).length,
          List.zipWith_append _ _ _ _ _ (by simp)]
      · rw [List.length_append]
        omega

theorem zipWith_ph_map_fst : ∀ (r : List Nat) (t : List Node), r.length = t.length →
    (List.zipWith (fun k e => (placeholder k, serializeNode e)) r t).map Prod.fst =
      r.map placeholder := by
  intro r
  induction r with
  | nil => intro t _; simp
  | cons x xs ih =>
    intro t h
    cases t with
    | nil => simp at h
    | cons y ys =>
      simp only [List.zipWith_cons_cons, List.map_cons]
      exact congrArg _ (ih ys (by simpa using h))

theorem extract_no_macros : ∀ l : List Node, anyMacroList l = false →
    ∀ i, extractList l i = (l, [], i) := by
  intro l
  induction l using nodeListInd with
  | hnil => intro _ i; simp [extractList]
  | htext s rest ih =>
    intro h i
    have hr : anyMacroList rest = false := by
      simpa [anyMacroList, anyMacroNode] using h
    simp [extractList, extractNode, ih hr i]
  | helem name attrs ch rest ihc ihr =>
    intro h i
    simp only [anyMacroList, anyMacroNode, Bool.or_eq_false_iff] at h
    simp [extractList, extractNode, h.1.1, ihc h.1.2 i, ihr h.2 i]

/-! ## Serialized markup of nested nodes -/

theorem infix_append_left {x t : List Char} (s : List Char) (h : x <:+: t) :
    x <:+: s ++ t :=
  h.trans (List.suffix_append s t).isInfix

theorem infix_append_right {x t : List Char} (s : List Char) (h : x <:+: t) :
    x <:+: t ++ s :=
  h.trans (List.prefix_append t s).isInfix

theorem infix_serialize_elem (name : String) (attrs : List (String × String))
    (ch : List Node) {x : List Char} (h : x <:+: (serializeList ch).data) :
    x <:+: (serializeNode (Node.elem name attrs ch)).data := by
  have hd : (serializeNode (Node.elem name attrs ch)).data =
      ("<" ++ name ++ attrsString attrs ++ ">").data ++
        ((serializeList ch).data ++ ("</" ++ name ++ ">").data) := by
    simp [serializeNode, String.data_append, List.append_assoc]
  rw [hd]
  exact infix_append_left _ (infix_append_right _ h)

theorem serialize_infix_mem : ∀ l : List Node, ∀ c ∈ subNodesList l,
    (serializeNode c).data <:+: (serializeList l).data := by
  intro l
  induction l using nodeListInd with
  | hnil => simp [subNodesList]
  | htext s rest ih =>
    intro c hc
    have hd : (serializeList (Node.text s :: rest)).data =
        (serializeNode (Node.text s)).data ++ (serializeList rest).data := by
      simp [serializeList, String.data_append]
    rw [hd]
    simp only [subNodesList, subNodesNode, List.singleton_append, List.mem_cons] at hc
    rcases hc with rfl | hc
    · exact infix_append_right _ (List.prefix_refl _).isInfix
    · exact infix_append_left _ (ih c hc)
  | helem name attrs ch rest ihc ihr =>
    intro c hc
    have hd : (serializeList (Node.elem name attrs ch :: rest)).data =
        (serializeNode (Node.elem name attrs ch)).data ++ (serializeList rest).data := by
      simp [serializeList, String.data_append]
    rw [hd]
    simp only [subNodesList, subNodesNode, List.cons_append, List.mem_cons,
      List.mem_append] at hc
    rcases hc with rfl | hc | hc
    · exact infix_append_right _ (List.prefix_refl _).isInfix
    · exact infix_append_right _ (infix_serialize_elem name attrs ch (ihc c hc))
    · exact infix_append_left _ (ihr c hc)

/-! ## Facts about `pyReplace` -/

theorem pyReplaceAux_nil (old new : List Char) : ∀ fuel, pyReplaceAux old new fuel [] = [] := by
  intro fuel
  cases fuel <;> rfl

theorem string_mk_data (s : String) : String.mk s.data = s := rfl

theorem placeholder_data_ne_nil (n : Nat) : (placeholder n).data ≠ [] := by
  simp [placeholder, String.data_append]

theorem pyReplace_self (old new : String) (h : old.data ≠ []) :
    pyReplace old old new = new := by
  obtain ⟨c, rest, hd⟩ : ∃ c rest, old.data = c :: rest := by
    cases hcd : old.data with
    | nil => exact absurd hcd h
    | cons a b => exact ⟨a, b, rfl⟩
  show String.mk (pyReplaceAux old.data new.data old.data.length old.data) = new
  rw [hd]
  rw [show (c :: rest).length = rest.length + 1 from rfl]
  rw [show pyReplaceAux (c :: rest) new.data (rest.length + 1) (c :: rest) =
      if (c :: rest) ≠ [] ∧ (c :: rest).isPrefixOf (c :: rest) then
        new.data ++ pyReplaceAux (c :: rest) new.data rest.length
          (List.drop (c :: rest).length (c :: rest))
      else c :: pyReplaceAux (c :: rest) new.data rest.length rest from rfl]
  rw [if_pos ⟨List.cons_ne_nil c rest, List.isPrefixOf_iff_prefix.mpr (List.prefix_refl _)⟩]
  rw [List.drop_length, pyReplaceAux_nil, List.append_nil]

theorem pyReplaceAux_single (o : Char) (new : List Char) :
    ∀ (s : List Char) (fuel : Nat), s.length ≤ fuel →
    pyReplaceAux [o] new fuel s = s.flatMap (fun c => if c = o then new else [c]) := by
  intro s
  induction s with
  | nil => intro fuel _; simp [pyReplaceAux_nil]
  | cons c rest ih =>
    intro fuel hf
    cases fuel with
    | zero => simp at hf
    | succ f =>
      rw [show pyReplaceAux [o] new (f + 1) (c :: rest) =
          if [o] ≠ [] ∧ [o].isPrefixOf (c :: rest) then
            new ++ pyReplaceAux [o] new f (List.drop 1 (c :: rest))
          else c :: pyReplaceAux [o] new f rest from rfl]
      by_cases hco : c = o
      · subst hco
        rw [if_pos ⟨by simp, List.isPrefixOf_iff_prefix.mpr ⟨rest, rfl⟩⟩]
        simp only [List.drop_succ_cons, List.drop_zero, List.flatMap_cons]
        rw [if_true, ih f (by simpa using hf)]
      · rw [if_neg ?hneg]
        · simp only [List.flatMap_cons, if_neg hco, List.singleton_append]
          rw [ih f (by simpa using hf)]
        case hneg =>
          rintro ⟨-, hp⟩
          rcases List.isPrefixOf_iff_prefix.mp hp with ⟨t, ht⟩
          exact hco (by injection ht with h1 _; exact h1.symm)

theorem flatMap_crlf_two (l : List Char) :
    (l.flatMap (fun c => if c = '\r' then [' '] else [c])).flatMap
        (fun c => if c = '\n' then [' '] else [c]) =
      l.map (fun c => if c = '\r' ∨ c = '\n' then ' ' else c) := by
  induction l with
  | nil => rfl
  | cons c rest ih =>
    simp only [List.flatMap_cons, List.map_cons, List.flatMap_append]
    by_cases h1 : c = '\r'
    · subst h1
      simp [ih]
    · by_cases h2 : c = '\n'
      · subst h2
        simp [ih]
      · simp [h1, h2, ih]

/-! ## Claim theorems -/

/-- C1: for every document and every index `k` into its list of
top-level macro elements, the extraction pass of
`_html_to_markdown_with_macros` records at position `k` of the macro map
exactly the pair of the `k+1`-st placeholder and the serialized markup of
that macro element, and substituting the placeholder back with the
recorded markup (the `str.replace` of `edit_page_with_editor`, lines
825-827) reproduces that serialized markup byte for byte. -/
theorem claim_C1_macro_roundtrip (render : String → String) (doc : List Node)
    (k : Nat) (e : Node) (he : (topMacrosList doc)[k]? = some e) :
    (html_to_markdown_with_macros render doc).2[k]? =
      some (placeholder (k + 1), serializeNode e) ∧
    pyReplace (placeholder (k + 1)) (placeholder (k + 1)) (serializeNode e) =
      serializeNode e := by
  refine ⟨?_, pyReplace_self _ _ (placeholder_data_ne_nil (k + 1))⟩
  have hk : k < (topMacrosList doc).length := by
    have := List.getElem?_eq_some_iff.mp he
    exact this.1
  show (extractList doc 1).2.1[k]? = _
  rw [(extract_spec doc 1).1, List.getElem?_zipWith,
    List.getElem?_range' 1 1 hk, he]
  simp [Nat.add_comm 1 k]

theorem claim_C1_macro_roundtrip_witness :
    ((html_to_markdown_with_macros (fun s => s)
        [Node.elem "p" [] [Node.text "Hi"],
          Node.elem "ac:structured-macro" [("ac:name", "toc")] [],
          Node.elem "p" [] [Node.text "Bye"]]).2[0]? =
      some (placeholder 1,
        serializeNode (Node.elem "ac:structured-macro" [("ac:name", "toc")] []))) ∧
    pyReplace (placeholder 1) (placeholder 1)
        (serializeNode (Node.elem "ac:structured-macro" [("ac:name", "toc")] [])) =
      serializeNode (Node.elem "ac:structured-macro" [("ac:name", "toc")] []) :=
  claim_C1_macro_roundtrip (fun s => s)
    [Node.elem "p" [] [Node.text "Hi"],
      Node.elem "ac:structured-macro" [("ac:name", "toc")] [],
      Node.elem "p" [] [Node.text "Bye"]] 0
    (Node.elem "ac:structured-macro" [("ac:name", "toc")] []) rfl

/-- C4: one extraction pass over any document records, as the keys of the
macro map in order, exactly the placeholders numbered `1` through `N`
where `N` is the number of qualifying top-level macro elements — no gaps,
no repeats, and exactly `N` distinct keys. -/
theorem claim_C4_placeholder_numbering (render : String → String) (doc : List Node) :
    ((html_to_markdown_with_macros render doc).2.map Prod.fst =
      (List.range' 1 (topMacrosList doc).length).map placeholder) ∧
    (html_to_markdown_with_macros render doc).2.length = (topMacrosList doc).length ∧
    ((html_to_markdown_with_macros render doc).2.map Prod.fst).Nodup := by
  have hm : (html_to_markdown_with_macros render doc).2 = (extractList doc 1).2.1 := rfl
  have hkeys : (html_to_markdown_with_macros render doc).2.map Prod.fst =
      (List.range' 1 (topMacrosList doc).length).map placeholder := by
    rw [hm, (extract_spec doc 1).1]
    exact zipWith_ph_map_fst _ _ (by simp)
  refine ⟨hkeys, ?_, ?_⟩
  · rw [hm, (extract_spec doc 1).1]
    simp
  · rw [hkeys]
    exact (List.nodup_range' 1 (topMacrosList doc).length).map placeholder_injective

/-- C5: an element whose tag name carries the reserved prefix is
extracted as a single unit — the pass records exactly one entry for it
(the whole serialized element) and replaces it by one placeholder text
node, so no macro element nested anywhere inside it is assigned its own
placeholder — and the serialized markup of every nested node occurs
verbatim (as a contiguous substring) inside the recorded markup of the
outer element. -/
theorem claim_C5_nesting_exclusion (name : String) (attrs : List (String × String))
    (ch : List Node) (i : Nat) (c : Node)
    (hmac : isMacroName name = true) (hc : c ∈ subNodesList ch) :
    extractNode (.elem name attrs ch) i =
      (.text (placeholder i),
        [(placeholder i, serializeNode (.elem name attrs ch))], i + 1) ∧
    (serializeNode c).data <:+: (serializeNode (.elem name attrs ch)).data := by
  constructor
  · simp [extractNode, hmac]
  · exact infix_serialize_elem name attrs ch (serialize_infix_mem ch c hc)

theorem claim_C5_nesting_exclusion_witness :
    (extractNode (.elem "ac:structured-macro" []
        [Node.elem "ac:rich-text-body" [] [Node.text "inner"]]) 1 =
      (.text (placeholder 1),
        [(placeholder 1, serializeNode (.elem "ac:structured-macro" []
          [Node.elem "ac:rich-text-body" [] [Node.text "inner"]]))], 2)) ∧
    (serializeNode (Node.elem "ac:rich-text-body" [] [Node.text "inner"])).data <:+:
      (serializeNode (Node.elem "ac:structured-macro" []
        [Node.elem "ac:rich-text-body" [] [Node.text "inner"]])).data :=
  claim_C5_nesting_exclusion "ac:structured-macro" []
    [Node.elem "ac:rich-text-body" [] [Node.text "inner"]] 1
    (Node.elem "ac:rich-text-body" [] [Node.text "inner"]) (by decide)
    (by simp [subNodesList, subNodesNode])

/-- C7: the heading escape maps the title `Title #1 \ test` followed by a
newline and `next` to exactly `Title \#1 \\ test next`; in general it
folds CR and LF to spaces, doubles every backslash, and prefixes every
`#` with a backslash, in that order. -/
theorem claim_C7_heading_escape :
    escape_markdown_heading "Title #1 \\ test\nnext" = "Title \\#1 \\\\ test next" ∧
    ∀ s : String, (escape_markdown_heading s).data =
      ((s.data.map (fun c => if c = '\r' ∨ c = '\n' then ' ' else c)).flatMap
          (fun c => if c = '\\' then ['\\', '\\'] else [c])).flatMap
        (fun c => if c = '#' then ['\\', '#'] else [c]) := by
  refine ⟨by decide, ?_⟩
  intro s
  have e1 : (pyReplace s "\r" " ").data =
      s.data.flatMap (fun c => if c = '\r' then [' '] else [c]) :=
    pyReplaceAux_single '\r' [' '] s.data s.data.length (Nat.le_refl _)
  have e2 : (pyReplace (pyReplace s "\r" " ") "\n" " ").data =
      (pyReplace s "\r" " ").data.flatMap (fun c => if c = '\n' then [' '] else [c]) :=
    pyReplaceAux_single '\n' [' '] (pyReplace s "\r" " ").data
      (pyReplace s "\r" " ").data.length (Nat.le_refl _)
  have e3 : (pyReplace (pyReplace (pyReplace s "\r" " ") "\n" " ") "\\" "\\\\").data =
      (pyReplace (pyReplace s "\r" " ") "\n" " ").data.flatMap
        (fun c => if c = '\\' then ['\\', '\\'] else [c]) :=
    pyReplaceAux_single '\\' ['\\', '\\']
      (pyReplace (pyReplace s "\r" " ") "\n" " ").data
      (pyReplace (pyReplace s "\r" " ") "\n" " ").data.length (Nat.le_refl _)
  have e4 : (escape_markdown_heading s).data =
      (pyReplace (pyReplace (pyReplace s "\r" " ") "\n" " ") "\\" "\\\\").data.flatMap
        (fun c => if c = '#' then ['\\', '#'] else [c]) :=
    pyReplaceAux_single '#' ['\\', '#']
      (pyReplace (pyReplace (pyReplace s "\r" " ") "\n" " ") "\\" "\\\\").data
      (pyReplace (pyReplace (pyReplace s "\r" " ") "\n" " ") "\\" "\\\\").data.length
      (Nat.le_refl _)
  rw [e4, e3, e2, e1, flatMap_crlf_two]

/-- C8: when the single `session.put` of an update answers HTTP 409, the
session raises the distinct version-conflict error carrying the literal
"refresh and try again" message, and exactly one submission is ever
attempted — the update is never retried. -/
theorem claim_C8_version_conflict (fetchedVersion : Nat) (title body : String)
    (respond : UpdateRequest → Nat)
    (h : respond ⟨fetchedVersion + 1, title, body⟩ = 409) :
    submitPageUpdate fetchedVersion title body respond =
      ([⟨fetchedVersion + 1, title, body⟩],
        .versionConflict versionConflictMessage) := by
  simp [submitPageUpdate, h]

theorem claim_C8_version_conflict_witness :
    submitPageUpdate 7 "T" "B" (fun _ => 409) =
      ([⟨8, "T", "B"⟩], .versionConflict versionConflictMessage) :=
  claim_C8_version_conflict 7 "T" "B" (fun _ => 409) rfl

/-- C10: on a document containing no element with the reserved `ac:`
name, the macro-aware renderer returns exactly the plain renderer's
Markdown together with an empty macro map, for every black-box Markdown
renderer. -/
theorem claim_C10_renderer_agreement (render : String → String) (doc : List Node)
    (h : anyMacroList doc = false) :
    html_to_markdown_with_macros render doc = (html_to_markdown render doc, []) := by
  show (pyStrip (render (serializeList (extractList doc 1).1)), (extractList doc 1).2.1) = _
  rw [extract_no_macros doc h 1]
  rfl

theorem splitAtFirst_at (needle : List Char) (hn : needle ≠ []) :
    ∀ (pay rest : List Char),
    (∀ p < pay.length, needle.isPrefixOf ((pay ++ (needle ++ rest)).drop p) = false) →
    splitAtFirst needle (pay ++ (needle ++ rest)) = some (pay, rest) := by
  intro pay
  induction pay with
  | nil =>
    intro rest _
    obtain ⟨c, nrest, hc⟩ : ∃ c nrest, needle = c :: nrest := by
      cases hcd : needle with
      | nil => exact absurd hcd hn
      | cons a b => exact ⟨a, b, rfl⟩
    simp only [List.nil_append]
    rw [hc]
    show splitAtFirst (c :: nrest) (c :: (nrest ++ rest)) = _
    rw [show splitAtFirst (c :: nrest) (c :: (nrest ++ rest)) =
        if (c :: nrest).isPrefixOf (c :: (nrest ++ rest)) then
          some ([], List.drop (c :: nrest).length (c :: (nrest ++ rest)))
        else
          match splitAtFirst (c :: nrest) (nrest ++ rest) with
          | some (a, b) => some (c :: a, b)
          | none => none from rfl]
    rw [if_pos (List.isPrefixOf_iff_prefix.mpr ⟨rest, by simp⟩)]
    simp [List.drop_append_of_le_length]
  | cons c pay' ih =>
    intro rest h
    have h0 : needle.isPrefixOf (c :: (pay' ++ (needle ++ rest))) = false := by
      have := h 0 (by simp)
      simpa using this
    show splitAtFirst needle (c :: (pay' ++ (needle ++ rest))) = _
    rw [show splitAtFirst needle (c :: (pay' ++ (needle ++ rest))) =
        if needle.isPrefixOf (c :: (pay' ++ (needle ++ rest))) then
          some ([], List.drop needle.length (c :: (pay' ++ (needle ++ rest))))
        else
          match splitAtFirst needle (pay' ++ (needle ++ rest)) with
          | some (a, b) => some (c :: a, b)
          | none => none from rfl]
    rw [h0]
    rw [ih rest (fun p hp => by have := h (p + 1) (by simpa using Nat.succ_lt_succ hp); simpa using this)]
    rfl

theorem findBlock_at :
    ∀ (pre tail grp after : List Char),
    (∀ p < pre.length, startMarker.isPrefixOf ((pre ++ tail).drop p) = false) →
    startMarker.isPrefixOf tail = true →
    splitAtFirst endMarker (tail.drop startMarker.length) = some (grp, after) →
    findBlock (pre ++ tail) = some (pre, grp, after) := by
  intro pre
  induction pre with
  | nil =>
    intro tail grp after _ hpre hsplit
    obtain ⟨c, rest, hc⟩ : ∃ c rest, tail = c :: rest := by
      cases hcd : tail with
      | nil => rw [hcd] at hpre; simp [startMarker] at hpre
      | cons a b => exact ⟨a, b, rfl⟩
    subst hc
    simp only [List.nil_append]
    rw [show findBlock (c :: rest) =
        (match
          (if startMarker.isPrefixOf (c :: rest) then
            splitAtFirst endMarker (List.drop startMarker.length (c :: rest))
          else none) with
        | some (grp, after) => some (([] : List Char), grp, after)
        | none =>
          match findBlock rest with
          | some (a, g, b) => some (c :: a, g, b)
          | none => none) from rfl]
    rw [hpre, hsplit]
    rfl
  | cons c pre' ih =>
    intro tail grp after h hpre hsplit
    have h0 : startMarker.isPrefixOf (c :: (pre' ++ tail)) = false := by
      have := h 0 (by simp)
      simpa using this
    show findBlock (c :: (pre' ++ tail)) = _
    rw [show findBlock (c :: (pre' ++ tail)) =
        (match
          (if startMarker.isPrefixOf (c :: (pre' ++ tail)) then
            splitAtFirst endMarker (List.drop startMarker.length (c :: (pre' ++ tail)))
          else none) with
        | some (grp, after) => some (([] : List Char), grp, after)
        | none =>
          match findBlock (pre' ++ tail) with
          | some (a, g, b) => some (c :: a, g, b)
          | none => none) from rfl]
    rw [h0]
    have hrec := ih tail grp after
      (fun p hp => by have := h (p + 1) (by simpa using Nat.succ_lt_succ hp); simpa using this)
      hpre hsplit
    rw [hrec]
    rfl

theorem findBlock_none :
    ∀ l : List Char, (∀ p < l.length, startMarker.isPrefixOf (l.drop p) = false) →
    findBlock l = none := by
  intro l
  induction l with
  | nil => intro _; rfl
  | cons c rest ih =>
    intro h
    have h0 : startMarker.isPrefixOf (c :: rest) = false := by
      have := h 0 (by simp)
      simpa using this
    rw [show findBlock (c :: rest) =
        (match
          (if startMarker.isPrefixOf (c :: rest) then
            splitAtFirst endMarker (List.drop startMarker.length (c :: rest))
          else none) with
        | some (grp, after) => some (([] : List Char), grp, after)
        | none =>
          match findBlock rest with
          | some (a, g, b) => some (c :: a, g, b)
          | none => none) from rfl]
    rw [h0]
    rw [ih (fun p hp => by have := h (p + 1) (by simpa using Nat.succ_lt_succ hp); simpa using this)]
    rfl

theorem removeBlocksAux_none (l : List Char) (h : findBlock l = none) :
    ∀ fuel, removeBlocksAux fuel l = l := by
  intro fuel
  cases fuel with
  | zero => rfl
  | succ f =>
    show (match findBlock l with
      | none => l
      | some (before, _, after) =>
        before ++ removeBlocksAux f (match after with | '\n' :: t => t | _ => after)) = l
    rw [h]

/-! ## Base64 round trip -/

theorem b64Val_b64Char : ∀ i : Fin 64, b64Val (b64Char i.val) = some i.val := by
  decide

theorem b64Val_b64Char_of_lt {n : Nat} (h : n < 64) : b64Val (b64Char n) = some n :=
  b64Val_b64Char ⟨n, h⟩

theorem b64Char_isData {n : Nat} (h : n < 64) : isB64Data (b64Char n) = true := by
  simp [isB64Data, b64Val_b64Char_of_lt h]

theorem b64Char_ascii : ∀ i : Fin 64, (b64Char i.val).toNat < 128 := by
  decide

theorem b64EncodeList_mem_valid : ∀ bytes : List Nat, (∀ b ∈ bytes, b < 256) →
    ∀ c ∈ b64EncodeList bytes, (isB64Data c || c = '=') = true ∧ c.toNat < 128 := by
  intro bytes
  induction bytes using b64EncodeList.induct with
  | case1 => intro _ c hc; simp [b64EncodeList] at hc
  | case2 x =>
    intro hb c hc
    have hx : x < 256 := hb x (by simp)
    simp only [b64EncodeList, List.mem_cons] at hc
    rcases hc with rfl | rfl | rfl | rfl | h
    · exact ⟨by simp [b64Char_isData (by omega : x / 4 < 64)],
        b64Char_ascii ⟨x / 4, by omega⟩⟩
    · exact ⟨by simp [b64Char_isData (by omega : x % 4 * 16 < 64)],
        b64Char_ascii ⟨x % 4 * 16, by omega⟩⟩
    · exact ⟨by simp, by decide⟩
    · exact ⟨by simp, by decide⟩
    · simp at h
  | case3 x y =>
    intro hb c hc
    have hx : x < 256 := hb x (by simp)
    have hy : y < 256 := hb y (by simp)
    simp only [b64EncodeList, List.mem_cons] at hc
    rcases hc with rfl | rfl | rfl | rfl | h
    · exact ⟨by simp [b64Char_isData (by omega : x / 4 < 64)],
        b64Char_ascii ⟨x / 4, by omega⟩⟩
    · exact ⟨by simp [b64Char_isData (by omega : x % 4 * 16 + y / 16 < 64)],
        b64Char_ascii ⟨x % 4 * 16 + y / 16, by omega⟩⟩
    · exact ⟨by simp [b64Char_isData (by omega : y % 16 * 4 < 64)],
        b64Char_ascii ⟨y % 16 * 4, by omega⟩⟩
    · exact ⟨by simp, by decide⟩
    · simp at h
  | case4 x y z rest ih =>
    intro hb c hc
    have hx : x < 256 := hb x (by simp)
    have hy : y < 256 := hb y (by simp)
    have hz : z < 256 := hb z (by simp)
    simp only [b64EncodeList, List.mem_cons] at hc
    rcases hc with rfl | rfl | rfl | rfl | h
    · exact ⟨by simp [b64Char_isData (by omega : x / 4 < 64)],
        b64Char_ascii ⟨x / 4, by omega⟩⟩
    · exact ⟨by simp [b64Char_isData (by omega : x % 4 * 16 + y / 16 < 64)],
        b64Char_ascii ⟨x % 4 * 16 + y / 16, by omega⟩⟩
    · exact ⟨by simp [b64Char_isData (by omega : y % 16 * 4 + z / 64 < 64)],
        b64Char_ascii ⟨y % 16 * 4 + z / 64, by omega⟩⟩
    · exact ⟨by simp [b64Char_isData (by omega : z % 64 < 64)],
        b64Char_ascii ⟨z % 64, by omega⟩⟩
    · exact ih (fun b hb' => hb b (by simp [hb'])) c h

theorem b64Val_eq_char : b64Val '=' = none := rfl

theorem b64DecodeCore_pad2 (a b : Char) (va vb : Nat) (tail : List Char)
    (ha : b64Val a = some va) (hb : b64Val b = some vb) :
    b64DecodeCore (a :: b :: '=' :: '=' :: tail) = some [va * 4 + vb / 16] := by
  simp [b64DecodeCore, ha, hb, b64Val_eq_char]

theorem b64DecodeCore_pad1 (a b c : Char) (va vb vc : Nat) (tail : List Char)
    (ha : b64Val a = some va) (hb : b64Val b = some vb) (hc : b64Val c = some vc) :
    b64DecodeCore (a :: b :: c :: '=' :: tail) =
      some [va * 4 + vb / 16, vb % 16 * 16 + vc / 4] := by
  simp [b64DecodeCore, ha, hb, hc, b64Val_eq_char]

theorem b64DecodeCore_cons4 (a b c d : Char) (va vb vc vd : Nat) (tail : List Char)
    (ha : b64Val a = some va) (hb : b64Val b = some vb) (hc : b64Val c = some vc)
    (hd : b64Val d = some vd) :
    b64DecodeCore (a :: b :: c :: d :: tail) =
      match b64DecodeCore tail with
      | some t => some ((va * 4 + vb / 16) :: (vb % 16 * 16 + vc / 4) ::
          (vc % 4 * 64 + vd) :: t)
      | none => none := by
  simp [b64DecodeCore, ha, hb, hc, hd]

theorem b64DecodeCore_encode : ∀ bytes : List Nat, (∀ b ∈ bytes, b < 256) →
    b64DecodeCore (b64EncodeList bytes) = some bytes := by
  intro bytes
  induction bytes using b64EncodeList.induct with
  | case1 => intro _; rfl
  | case2 x =>
    intro hb
    have hx : x < 256 := hb x (by simp)
    show b64DecodeCore (b64Char (x / 4) :: b64Char (x % 4 * 16) :: '=' :: '=' :: []) =
      some [x]
    rw [b64DecodeCore_pad2 _ _ _ _ _ (b64Val_b64Char_of_lt (by omega))
      (b64Val_b64Char_of_lt (by omega))]
    congr 2
    omega
  | case3 x y =>
    intro hb
    have hx : x < 256 := hb x (by simp)
    have hy : y < 256 := hb y (by simp)
    show b64DecodeCore (b64Char (x / 4) :: b64Char (x % 4 * 16 + y / 16) ::
        b64Char (y % 16 * 4) :: '=' :: []) = some [x, y]
    rw [b64DecodeCore_pad1 _ _ _ _ _ _ _ (b64Val_b64Char_of_lt (by omega))
      (b64Val_b64Char_of_lt (by omega)) (b64Val_b64Char_of_lt (by omega))]
    congr 3
    · omega
    · omega
  | case4 x y z rest ih =>
    intro hb
    have hx : x < 256 := hb x (by simp)
    have hy : y < 256 := hb y (by simp)
    have hz : z < 256 := hb z (by simp)
    have hrest := ih (fun b hb' => hb b (by simp [hb']))
    show b64DecodeCore (b64Char (x / 4) :: b64Char (x % 4 * 16 + y / 16) ::
        b64Char (y % 16 * 4 + z / 64) :: b64Char (z % 64) :: b64EncodeList rest) =
      some (x :: y :: z :: rest)
    rw [b64DecodeCore_cons4 _ _ _ _ _ _ _ _ _ (b64Val_b64Char_of_lt (by omega))
      (b64Val_b64Char_of_lt (by omega)) (b64Val_b64Char_of_lt (by omega))
      (b64Val_b64Char_of_lt (by omega)), hrest]
    show some ((x / 4 * 4 + (x % 4 * 16 + y / 16) / 16) ::
      ((x % 4 * 16 + y / 16) % 16 * 16 + (y % 16 * 4 + z / 64) / 4) ::
      ((y % 16 * 4 + z / 64) % 4 * 64 + z % 64) :: rest) = some (x :: y :: z :: rest)
    congr 4
    · omega
    · omega
    · omega

theorem b64decodeOpt_encode (bytes : List Nat) (h : ∀ b ∈ bytes, b < 256) :
    b64decodeOpt (b64encode bytes) = some bytes := by
  have hmem := b64EncodeList_mem_valid bytes h
  show (if (b64EncodeList bytes).any (fun c => 128 ≤ c.toNat) then none
    else b64DecodeCore ((b64EncodeList bytes).filter (fun c => isB64Data c || c = '='))) =
    some bytes
  rw [if_neg ?hascii]
  · rw [List.filter_eq_self.mpr (fun c hc => (hmem c hc).1)]
    exact b64DecodeCore_encode bytes h
  case hascii =>
    rw [List.any_eq_true]
    rintro ⟨c, hc, hge⟩
    have := (hmem c hc).2
    simp at hge
    omega

/-! ## UTF-8 facts -/

theorem char_toNat_valid (c : Char) :
    c.toNat < 0xd800 ∨ (0xdfff < c.toNat ∧ c.toNat < 0x110000) := c.valid

theorem utf8EncodeChar_lt_256 (c : Char) : ∀ b ∈ utf8EncodeChar c, b < 256 := by
  have hv : c.toNat < 0x110000 := by
    rcases char_toNat_valid c with h | h
    · omega
    · omega
  intro b hb
  simp only [utf8EncodeChar] at hb
  split_ifs at hb with h1 h2 h3 <;> simp at hb <;> omega

theorem utf8Encode_lt_256 (s : String) : ∀ b ∈ utf8Encode s, b < 256 := by
  intro b hb
  simp only [utf8Encode, List.mem_flatMap] at hb
  obtain ⟨c, _, hbc⟩ := hb
  exact utf8EncodeChar_lt_256 c b hbc

theorem utf8_ascii_roundtrip : ∀ l : List Char, (∀ c ∈ l, c.toNat < 128) →
    utf8DecodeList (l.flatMap utf8EncodeChar) = some l := by
  intro l
  induction l with
  | nil => intro _; rfl
  | cons c rest ih =>
    intro h
    have hc : c.toNat < 128 := h c (by simp)
    have henc : utf8EncodeChar c = [c.toNat] := by
      simp [utf8EncodeChar, hc]
    rw [List.flatMap_cons, henc]
    show utf8DecodeList (c.toNat :: rest.flatMap utf8EncodeChar) = some (c :: rest)
    have hih := ih (fun d hd => h d (by simp [hd]))
    simp only [utf8DecodeList]
    rw [if_pos (by omega : c.toNat < 0x80), hih]
    simp [consChar, Char.ofNat_toNat]

theorem utf8Decode_ascii (s : String) (h : ∀ c ∈ s.data, c.toNat < 128) :
    utf8Decode (utf8Encode s) = some s := by
  show (match utf8DecodeList (s.data.flatMap utf8EncodeChar) with
    | none => none
    | some l => some (String.mk l)) = some s
  rw [utf8_ascii_roundtrip s.data h]

/-! ## The dumped JSON text is printable ASCII -/

theorem toHexDigit_printable (x : Nat) (h : x < 16) :
    0x20 ≤ (toHexDigit x).toNat ∧ (toHexDigit x).toNat ≤ 0x7e := by
  unfold toHexDigit
  split_ifs with h10
  · rw [char_toNat_ofNat (by omega)]
    omega
  · rw [char_toNat_ofNat (by omega)]
    omega

theorem hex4_printable (n : Nat) :
    ∀ d ∈ hex4 n, 0x20 ≤ d.toNat ∧ d.toNat ≤ 0x7e := by
  intro d hd
  simp only [hex4, List.mem_cons, List.not_mem_nil, or_false] at hd
  rcases hd with rfl | rfl | rfl | rfl <;>
    exact toHexDigit_printable _ (Nat.mod_lt _ (by omega))

theorem escJsonChar_printable (c : Char) :
    ∀ d ∈ escJsonChar c, 0x20 ≤ d.toNat ∧ d.toNat ≤ 0x7e := by
  intro d hd
  simp only [escJsonChar] at hd
  split_ifs at hd with h1 h2 h3 h4 h5 h6 h7 h8 h9 <;>
    simp only [List.cons_append, List.mem_cons, List.mem_append,
      List.not_mem_nil, or_false] at hd
  · rcases hd with rfl | rfl <;> decide
  · rcases hd with rfl | rfl <;> decide
  · rcases hd with rfl | rfl <;> decide
  · rcases hd with rfl | rfl <;> decide
  · rcases hd with rfl | rfl <;> decide
  · rcases hd with rfl | rfl <;> decide
  · rcases hd with rfl | rfl <;> decide
  · subst hd
    omega
  · rcases hd with rfl | rfl | h
    · decide
    · decide
    · exact hex4_printable _ d h
  · rcases hd with rfl | rfl | h | rfl | rfl | h
    · decide
    · decide
    · exact hex4_printable _ d h
    · decide
    · decide
    · exact hex4_printable _ d h

theorem jsonQuote_printable (s : String) :
    ∀ d ∈ jsonQuote s, 0x20 ≤ d.toNat ∧ d.toNat ≤ 0x7e := by
  intro d hd
  simp only [jsonQuote, List.mem_cons, List.mem_append, List.mem_flatMap,
    List.not_mem_nil, or_false] at hd
  rcases hd with rfl | ⟨c, _, hdc⟩ | rfl
  · decide
  · exact escJsonChar_printable c d hdc
  · decide

theorem jsonDumpsMembers_printable : ∀ m : List (String × String),
    ∀ d ∈ jsonDumpsMembers m, 0x20 ≤ d.toNat ∧ d.toNat ≤ 0x7e := by
  intro m
  induction m with
  | nil => intro d hd; simp [jsonDumpsMembers] at hd
  | cons kv m' ih =>
    intro d hd
    obtain ⟨k, v⟩ := kv
    cases m' with
    | nil =>
      simp only [jsonDumpsMembers, List.mem_append, List.mem_cons,
        List.append_nil, List.not_mem_nil, or_false] at hd
      rcases hd with hk | rfl | rfl | hv
      · exact jsonQuote_printable k d hk
      · decide
      · decide
      · exact jsonQuote_printable v d hv
    | cons e m'' =>
      have hstep : jsonDumpsMembers ((k, v) :: e :: m'') =
          jsonQuote k ++ (':' :: ' ' :: jsonQuote v) ++
            (',' :: ' ' :: jsonDumpsMembers (e :: m'')) := rfl
      rw [hstep] at hd
      simp only [List.mem_append, List.mem_cons] at hd
      rcases hd with (hk | rfl | rfl | hv) | rfl | rfl | hm
      · exact jsonQuote_printable k d hk
      · decide
      · decide
      · exact jsonQuote_printable v d hv
      · decide
      · decide
      · exact ih d hm

theorem json_dumps_obj_ascii (m : List (String × String)) :
    ∀ d ∈ (json_dumps_obj m).data, d.toNat < 128 := by
  intro d hd
  have hm : d ∈ ('\x7b' :: (jsonDumpsMembers m ++ ['\x7d'])) := hd
  simp only [List.mem_cons, List.mem_append, List.not_mem_nil, or_false] at hm
  rcases hm with rfl | hmm | rfl
  · decide
  · have := jsonDumpsMembers_printable m d hmm
    omega
  · decide

/-! ## Parsing the dumped JSON text: string literals -/

theorem hexDigitVal_toHexDigit : ∀ i : Fin 16, hexDigitVal (toHexDigit i.val) = some i.val := by
  decide

theorem hex4Val_toHex (n : Nat) (h : n < 0x10000) :
    hex4Val (toHexDigit (n / 4096 % 16)) (toHexDigit (n / 256 % 16))
      (toHexDigit (n / 16 % 16)) (toHexDigit (n % 16)) = some n := by
  have h1 := hexDigitVal_toHexDigit ⟨n / 4096 % 16, Nat.mod_lt _ (by omega)⟩
  have h2 := hexDigitVal_toHexDigit ⟨n / 256 % 16, Nat.mod_lt _ (by omega)⟩
  have h3 := hexDigitVal_toHexDigit ⟨n / 16 % 16, Nat.mod_lt _ (by omega)⟩
  have h4 := hexDigitVal_toHexDigit ⟨n % 16, Nat.mod_lt _ (by omega)⟩
  simp only at h1 h2 h3 h4
  simp only [hex4Val, h1, h2, h3, h4, Option.bind_eq_bind, Option.some_bind]
  show some (4096 * (n / 4096 % 16) + 256 * (n / 256 % 16) + 16 * (n / 16 % 16) + n % 16) =
    some n
  congr 1
  omega

theorem psb_quote (rest : List Char) : parseStringBody ('"' :: rest) = some ([], rest) := by
  simp [parseStringBody]

theorem psb_backslash (rest : List Char) :
    parseStringBody ('\\' :: rest) = parseEscape rest := by
  simp [parseStringBody]

theorem psb_lit (c : Char) (rest : List Char) (h1 : c ≠ '"') (h2 : c ≠ '\\')
    (h3 : ¬ c.toNat < 0x20) :
    parseStringBody (c :: rest) = consStr c (parseStringBody rest) := by
  simp [parseStringBody, h1, h2, h3]

theorem psb_escChar_bmp_a (c : Char) (rest : List Char)
    (h1 : c ≠ '"') (h2 : c ≠ '\\') (h3 : c ≠ '\x08') (h4 : c ≠ '\x0c')
    (h5 : c ≠ '\n') (h6 : c ≠ '\r') (h7 : c ≠ '\t')
    (h8 : ¬(0x20 ≤ c.toNat ∧ c.toNat ≤ 0x7e)) (h9 : c.toNat < 0x10000) :
    parseStringBody (escJsonChar c ++ rest) = parseHexEscape (hex4 c.toNat ++ rest) := by
  rw [show escJsonChar c = '\\' :: 'u' :: hex4 c.toNat from by
    simp [escJsonChar, h1, h2, h3, h4, h5, h6, h7, h8, h9]]
  rw [List.cons_append, List.cons_append, psb_backslash]
  rw [show ∀ tl, parseEscape ('u' :: tl) = parseHexEscape tl from fun tl => by
    simp [parseEscape]]

theorem parseHexEscape_cons (h1 h2 h3 h4 : Char) (tl : List Char) :
    parseHexEscape (h1 :: h2 :: h3 :: h4 :: tl) = parseHexVal (hex4Val h1 h2 h3 h4) tl := by
  simp [parseHexEscape]

theorem parseHexVal_some (n : Nat) (tl : List Char) :
    parseHexVal (some n) tl =
      if n < 0xd800 ∨ 0xe000 ≤ n then consStr (Char.ofNat n) (parseStringBody tl)
      else if n < 0xdc00 then parseLowSurrogate n tl
      else none := by
  simp [parseHexVal]

theorem parseLowSurrogate_cons (n : Nat) (g1 g2 g3 g4 : Char) (tl : List Char) :
    parseLowSurrogate n ('\\' :: 'u' :: g1 :: g2 :: g3 :: g4 :: tl) =
      parseLowVal n (hex4Val g1 g2 g3 g4) tl := by
  simp [parseLowSurrogate]

theorem parseLowVal_some (n k : Nat) (tl : List Char) :
    parseLowVal n (some k) tl =
      if 0xdc00 ≤ k ∧ k < 0xe000 then
        consStr (Char.ofNat (0x10000 + 1024 * (n - 0xd800) + (k - 0xdc00)))
          (parseStringBody tl)
      else none := by
  simp [parseLowVal]

theorem psb_escChar_bmp_b (c : Char) (rest : List Char) (h9 : c.toNat < 0x10000) :
    parseHexEscape (hex4 c.toNat ++ rest) = consStr c (parseStringBody rest) := by
  rw [show hex4 c.toNat ++ rest =
    toHexDigit (c.toNat / 4096 % 16) :: toHexDigit (c.toNat / 256 % 16) ::
      toHexDigit (c.toNat / 16 % 16) :: toHexDigit (c.toNat % 16) :: rest from rfl]
  rw [parseHexEscape_cons, hex4Val_toHex c.toNat h9, parseHexVal_some]
  have hvalid := char_toNat_valid c
  rw [if_pos (by omega : c.toNat < 0xd800 ∨ 0xe000 ≤ c.toNat), Char.ofNat_toNat]

theorem psb_escChar_astral_a (c : Char) (rest : List Char)
    (h1 : c ≠ '"') (h2 : c ≠ '\\') (h3 : c ≠ '\x08') (h4 : c ≠ '\x0c')
    (h5 : c ≠ '\n') (h6 : c ≠ '\r') (h7 : c ≠ '\t')
    (h8 : ¬(0x20 ≤ c.toNat ∧ c.toNat ≤ 0x7e)) (h9 : ¬ c.toNat < 0x10000) :
    parseStringBody (escJsonChar c ++ rest) =
      parseHexEscape (hex4 (0xd800 + (c.toNat - 0x10000) / 1024) ++
        ('\\' :: 'u' :: (hex4 (0xdc00 + (c.toNat - 0x10000) % 1024) ++ rest))) := by
  have he : escJsonChar c =
      ('\\' :: 'u' :: hex4 (0xd800 + (c.toNat - 0x10000) / 1024)) ++
        ('\\' :: 'u' :: hex4 (0xdc00 + (c.toNat - 0x10000) % 1024)) := by
    simp [escJsonChar, h1, h2, h3, h4, h5, h6, h7, h8, h9]
  rw [he, List.append_assoc, List.cons_append, List.cons_append, psb_backslash]
  rw [show ∀ tl, parseEscape ('u' :: tl) = parseHexEscape tl from fun tl => by
    simp [parseEscape]]
  rw [List.cons_append, List.cons_append]

theorem psb_escChar_astral_b (c : Char) (rest : List Char)
    (h9 : ¬ c.toNat < 0x10000) :
    parseHexEscape (hex4 (0xd800 + (c.toNat - 0x10000) / 1024) ++
        ('\\' :: 'u' :: (hex4 (0xdc00 + (c.toNat - 0x10000) % 1024) ++ rest))) =
      parseLowSurrogate (0xd800 + (c.toNat - 0x10000) / 1024)
        ('\\' :: 'u' :: (hex4 (0xdc00 + (c.toNat - 0x10000) % 1024) ++ rest)) := by
  have hvalid := char_toNat_valid c
  have hH : 0xd800 + (c.toNat - 0x10000) / 1024 < 0x10000 := by omega
  rw [show hex4 (0xd800 + (c.toNat - 0x10000) / 1024) ++
      ('\\' :: 'u' :: (hex4 (0xdc00 + (c.toNat - 0x10000) % 1024) ++ rest)) =
    toHexDigit ((0xd800 + (c.toNat - 0x10000) / 1024) / 4096 % 16) ::
      toHexDigit ((0xd800 + (c.toNat - 0x10000) / 1024) / 256 % 16) ::
      toHexDigit ((0xd800 + (c.toNat - 0x10000) / 1024) / 16 % 16) ::
      toHexDigit ((0xd800 + (c.toNat - 0x10000) / 1024) % 16) ::
      ('\\' :: 'u' :: (hex4 (0xdc00 + (c.toNat - 0x10000) % 1024) ++ rest)) from rfl]
  rw [parseHexEscape_cons, hex4Val_toHex _ hH, parseHexVal_some]
  rw [if_neg (by omega : ¬(0xd800 + (c.toNat - 0x10000) / 1024 < 0xd800 ∨
    0xe000 ≤ 0xd800 + (c.toNat - 0x10000) / 1024))]
  rw [if_pos (show 0xd800 + (c.toNat - 0x10000) / 1024 < 0xdc00 by omega)]

theorem psb_escChar_astral_c (c : Char) (rest : List Char)
    (h9 : ¬ c.toNat < 0x10000) :
    parseLowSurrogate (0xd800 + (c.toNat - 0x10000) / 1024)
        ('\\' :: 'u' :: (hex4 (0xdc00 + (c.toNat - 0x10000) % 1024) ++ rest)) =
      consStr c (parseStringBody rest) := by
  have hvalid := char_toNat_valid c
  have hmod := Nat.mod_lt (c.toNat - 0x10000) (show 0 < 1024 by omega)
  have hL : 0xdc00 + (c.toNat - 0x10000) % 1024 < 0x10000 := by omega
  rw [show hex4 (0xdc00 + (c.toNat - 0x10000) % 1024) ++ rest =
    toHexDigit ((0xdc00 + (c.toNat - 0x10000) % 1024) / 4096 % 16) ::
      toHexDigit ((0xdc00 + (c.toNat - 0x10000) % 1024) / 256 % 16) ::
      toHexDigit ((0xdc00 + (c.toNat - 0x10000) % 1024) / 16 % 16) ::
      toHexDigit ((0xdc00 + (c.toNat - 0x10000) % 1024) % 16) :: rest from rfl]
  rw [parseLowSurrogate_cons, hex4Val_toHex _ hL, parseLowVal_some]
  rw [if_pos (show 0xdc00 ≤ 0xdc00 + (c.toNat - 0x10000) % 1024 ∧
      0xdc00 + (c.toNat - 0x10000) % 1024 < 0xe000 by omega)]
  rw [show 0x10000 + 1024 * (0xd800 + (c.toNat - 0x10000) / 1024 - 0xd800) +
      (0xdc00 + (c.toNat - 0x10000) % 1024 - 0xdc00) = c.toNat by omega]
  rw [Char.ofNat_toNat]

theorem psb_escChar (c : Char) (rest : List Char) :
    parseStringBody (escJsonChar c ++ rest) = consStr c (parseStringBody rest) := by
  by_cases h1 : c = '"'
  · subst h1
    rw [show escJsonChar '"' ++ rest = '\\' :: '"' :: rest from rfl, psb_backslash]
    simp [parseEscape]
  by_cases h2 : c = '\\'
  · subst h2
    rw [show escJsonChar '\\' ++ rest = '\\' :: '\\' :: rest from rfl, psb_backslash]
    simp [parseEscape]
  by_cases h3 : c = '\x08'
  · subst h3
    rw [show escJsonChar '\x08' ++ rest = '\\' :: 'b' :: rest from rfl, psb_backslash]
    simp [parseEscape]
  by_cases h4 : c = '\x0c'
  · subst h4
    rw [show escJsonChar '\x0c' ++ rest = '\\' :: 'f' :: rest from rfl, psb_backslash]
    simp [parseEscape]
  by_cases h5 : c = '\n'
  · subst h5
    rw [show escJsonChar '\n' ++ rest = '\\' :: 'n' :: rest from rfl, psb_backslash]
    simp [parseEscape]
  by_cases h6 : c = '\r'
  · subst h6
    rw [show escJsonChar '\r' ++ rest = '\\' :: 'r' :: rest from rfl, psb_backslash]
    simp [parseEscape]
  by_cases h7 : c = '\t'
  · subst h7
    rw [show escJsonChar '\t' ++ rest = '\\' :: 't' :: rest from rfl, psb_backslash]
    simp [parseEscape]
  by_cases h8 : 0x20 ≤ c.toNat ∧ c.toNat ≤ 0x7e
  · rw [show escJsonChar c = [c] from by
      simp [escJsonChar, h1, h2, h3, h4, h5, h6, h7, h8]]
    rw [List.singleton_append]
    exact psb_lit c rest h1 h2 (by omega)
  by_cases h9 : c.toNat < 0x10000
  · exact (psb_escChar_bmp_a c rest h1 h2 h3 h4 h5 h6 h7 h8 h9).trans
      (psb_escChar_bmp_b c rest h9)
  · exact ((psb_escChar_astral_a c rest h1 h2 h3 h4 h5 h6 h7 h8 h9).trans
      (psb_escChar_astral_b c rest h9)).trans (psb_escChar_astral_c c rest h9)

theorem psb_escBody : ∀ (l rest : List Char),
    parseStringBody (l.flatMap escJsonChar ++ ('"' :: rest)) = some (l, rest) := by
  intro l
  induction l with
  | nil =>
    intro rest
    simp only [List.flatMap_nil, List.nil_append]
    exact psb_quote rest
  | cons c tl ih =>
    intro rest
    rw [List.flatMap_cons, List.append_assoc, psb_escChar, ih rest]
    rfl

theorem skipWs_cons (c : Char) (l : List Char) (h : isJsonWs c = false) :
    skipWs (c :: l) = c :: l := by
  simp [skipWs, List.dropWhile_cons, h]

theorem skipWs_space (l : List Char) : skipWs (' ' :: l) = skipWs l := by
  simp [skipWs, List.dropWhile_cons, isJsonWs]

theorem pv_str (fuel : Nat) (input : List Char) (rest : List Char)
    (h : skipWs input = '"' :: rest) :
    parseValue (fuel + 1) input =
      (match parseStringBody rest with
      | none => none
      | some (content, rest2) => some (.str ⟨content⟩, rest2)) := by
  simp only [parseValue, h]
  rfl

theorem pv_obj_empty (fuel : Nat) (input rest rest2 : List Char)
    (h : skipWs input = '\x7b' :: rest) (h2 : skipWs rest = '\x7d' :: rest2) :
    parseValue (fuel + 1) input = some (.obj [], rest2) := by
  simp only [parseValue, h, h2]
  rfl

theorem pv_obj_members (fuel : Nat) (input rest rest2 : List Char)
    (h : skipWs input = '\x7b' :: rest) (h2 : skipWs rest = '"' :: rest2) :
    parseValue (fuel + 1) input = parseMembers fuel ('"' :: rest2) := by
  simp only [parseValue, h, h2]
  rfl

/-! ## `json.loads` inverts `json.dumps` on the macro map -/

theorem dumpsMembers_shape (k v : String) (m' : List (String × String)) (Z : List Char) :
    jsonDumpsMembers ((k, v) :: m') ++ Z =
      '"' :: (k.data.flatMap escJsonChar ++ ('"' :: (':' :: ' ' ::
        ('"' :: (v.data.flatMap escJsonChar ++ ('"' :: jsonDumpsTail m' Z)))))) := by
  cases m' with
  | nil => simp [jsonDumpsMembers, jsonQuote, jsonDumpsTail]
  | cons e m'' =>
    rw [show jsonDumpsMembers ((k, v) :: e :: m'') =
        jsonQuote k ++ (':' :: ' ' :: jsonQuote v) ++
          (',' :: ' ' :: jsonDumpsMembers (e :: m'')) from rfl]
    simp [jsonQuote, jsonDumpsTail]

theorem skipWs_dumpsMembers (k v : String) (m' : List (String × String)) (Z : List Char) :
    skipWs (jsonDumpsMembers ((k, v) :: m') ++ Z) = jsonDumpsMembers ((k, v) :: m') ++ Z := by
  rw [dumpsMembers_shape]
  exact skipWs_cons '"' _ (by decide)

theorem jsonDumpsMembers_len : ∀ (m' : List (String × String)) (k v : String),
    2 * m'.length ≤ (jsonDumpsMembers ((k, v) :: m')).length := by
  intro m'
  induction m' with
  | nil => intro k v; simp
  | cons e m'' ih =>
    obtain ⟨k2, v2⟩ := e
    intro k v
    have h := ih k2 v2
    rw [show jsonDumpsMembers ((k, v) :: (k2, v2) :: m'') =
        jsonQuote k ++ (':' :: ' ' :: jsonQuote v) ++
          (',' :: ' ' :: jsonDumpsMembers ((k2, v2) :: m'')) from rfl]
    simp only [List.length_append, List.length_cons]
    omega

theorem parseMembers_succ (f : Nat) (input : List Char) :
    parseMembers (f + 1) input = pmKey (parseValue f) (parseMembers f) (skipWs input) := rfl

theorem pmKey_quote (pv pm : List Char → Option (Json × List Char)) (l : List Char) :
    pmKey pv pm ('"' :: l) = pmAfterKey pv pm (parseStringBody l) := rfl

theorem pmAfterKey_some (pv pm : List Char → Option (Json × List Char))
    (key rest2 : List Char) :
    pmAfterKey pv pm (some (key, rest2)) = pmColon pv pm ⟨key⟩ (skipWs rest2) := rfl

theorem pmColon_colon (pv pm : List Char → Option (Json × List Char)) (key : String)
    (l : List Char) : pmColon pv pm key (':' :: l) = pmValue pm key (pv l) := rfl

theorem pmValue_some (pm : List Char → Option (Json × List Char)) (key : String)
    (v : Json) (rest4 : List Char) :
    pmValue pm key (some (v, rest4)) = pmSep pm key v (skipWs rest4) := rfl

theorem pmSep_close (pm : List Char → Option (Json × List Char)) (key : String) (v : Json)
    (l : List Char) : pmSep pm key v ('\x7d' :: l) = some (.obj [(key, v)], l) := rfl

theorem pmSep_comma (pm : List Char → Option (Json × List Char)) (key : String) (v : Json)
    (l : List Char) : pmSep pm key v (',' :: l) = pmRest key v (pm l) := rfl

theorem pmRest_obj (key : String) (v : Json) (ms : List (String × Json)) (r : List Char) :
    pmRest key v (some (.obj ms, r)) = some (.obj ((key, v) :: ms), r) := rfl

theorem pv_str_esc (f : Nat) (input : List Char) (v : String) (Y : List Char)
    (hf : f ≠ 0)
    (h : skipWs input = '"' :: (v.data.flatMap escJsonChar ++ ('"' :: Y))) :
    parseValue f input = some (.str v, Y) := by
  obtain ⟨g, rfl⟩ : ∃ g, f = g + 1 := ⟨f - 1, by omega⟩
  rw [pv_str g input _ h, psb_escBody]

theorem parseMembers_dumps :
    ∀ (m' : List (String × String)) (k v : String) (input rest : List Char) (g : Nat),
    2 * m'.length + 2 ≤ g + 2 →
    skipWs input = jsonDumpsMembers ((k, v) :: m') ++ ('\x7d' :: rest) →
    parseMembers (g + 2) input =
      some (.obj (((k, v) :: m').map fun kv => (kv.1, Json.str kv.2)), rest) := by
  intro m'
  induction m' with
  | nil =>
    intro k v input rest g _ hinput
    rw [dumpsMembers_shape] at hinput
    rw [show jsonDumpsTail [] ('\x7d' :: rest) = '\x7d' :: rest from rfl] at hinput
    have hpv : parseValue (g + 1)
        (' ' :: ('"' :: (v.data.flatMap escJsonChar ++ ('"' :: ('\x7d' :: rest))))) =
        some (.str v, '\x7d' :: rest) :=
      pv_str_esc _ _ v _ (by omega)
        (by rw [skipWs_space]; exact skipWs_cons '"' _ (by decide))
    rw [show g + 2 = (g + 1) + 1 from rfl, parseMembers_succ, hinput, pmKey_quote,
      psb_escBody, pmAfterKey_some, skipWs_cons ':' _ (by decide), pmColon_colon,
      hpv, pmValue_some, skipWs_cons '\x7d' _ (by decide), pmSep_close]
    rfl
  | cons e m'' ih =>
    obtain ⟨k2, v2⟩ := e
    intro k v input rest g hfuel hinput
    rw [dumpsMembers_shape] at hinput
    rw [show jsonDumpsTail ((k2, v2) :: m'') ('\x7d' :: rest) =
        ',' :: ' ' :: (jsonDumpsMembers ((k2, v2) :: m'') ++ ('\x7d' :: rest)) from rfl]
      at hinput
    simp only [List.length_cons] at hfuel
    obtain ⟨g', rfl⟩ : ∃ g', g = g' + 1 := ⟨g - 1, by omega⟩
    have hpv : parseValue (g' + 2)
        (' ' :: ('"' :: (v.data.flatMap escJsonChar ++ ('"' :: (',' :: ' ' ::
          (jsonDumpsMembers ((k2, v2) :: m'') ++ ('\x7d' :: rest))))))) =
        some (.str v, ',' :: ' ' :: (jsonDumpsMembers ((k2, v2) :: m'') ++ ('\x7d' :: rest))) :=
      pv_str_esc _ _ v _ (by omega)
        (by rw [skipWs_space]; exact skipWs_cons '"' _ (by decide))
    have hih : parseMembers (g' + 2)
        (' ' :: (jsonDumpsMembers ((k2, v2) :: m'') ++ ('\x7d' :: rest))) =
        some (.obj (((k2, v2) :: m'').map fun kv => (kv.1, Json.str kv.2)), rest) :=
      ih k2 v2 _ rest g' (by omega)
        (by rw [skipWs_space]; exact skipWs_dumpsMembers k2 v2 m'' ('\x7d' :: rest))
    rw [show g' + 1 + 2 = (g' + 2) + 1 from rfl, parseMembers_succ, hinput, pmKey_quote,
      psb_escBody, pmAfterKey_some, skipWs_cons ':' _ (by decide), pmColon_colon,
      hpv, pmValue_some, skipWs_cons ',' _ (by decide), pmSep_comma, hih, pmRest_obj]
    rfl

theorem json_loads_dumps (m : List (String × String)) :
    json_loads (json_dumps_obj m) =
      some (.obj (m.map fun kv => (kv.1, Json.str kv.2))) := by
  cases m with
  | nil => rfl
  | cons kv m' =>
    obtain ⟨k, v⟩ := kv
    have hlen2 : ('\x7b' :: (jsonDumpsMembers ((k, v) :: m') ++ ['\x7d'])).length =
        (jsonDumpsMembers ((k, v) :: m')).length + 2 := by
      simp only [List.length_cons, List.length_append, List.length_nil]
    have hpv : parseValue (((jsonDumpsMembers ((k, v) :: m')).length + 2) + 1)
        ('\x7b' :: (jsonDumpsMembers ((k, v) :: m') ++ ['\x7d'])) =
        some (.obj (((k, v) :: m').map fun kv => (kv.1, Json.str kv.2)), []) := by
      rw [pv_obj_members ((jsonDumpsMembers ((k, v) :: m')).length + 2)
        ('\x7b' :: (jsonDumpsMembers ((k, v) :: m') ++ ['\x7d']))
        (jsonDumpsMembers ((k, v) :: m') ++ ['\x7d'])
        (k.data.flatMap escJsonChar ++ ('"' :: (':' :: ' ' ::
          ('"' :: (v.data.flatMap escJsonChar ++ ('"' :: jsonDumpsTail m' ['\x7d']))))))
        (skipWs_cons '\x7b' _ (by decide))
        (by rw [dumpsMembers_shape]; exact skipWs_cons '"' _ (by decide))]
      exact parseMembers_dumps m' k v _ []
        ((jsonDumpsMembers ((k, v) :: m')).length)
        (by have := jsonDumpsMembers_len m' k v; omega)
        (by rw [skipWs_cons '"' _ (by decide), dumpsMembers_shape])
    simp only [json_loads]
    rw [show (json_dumps_obj ((k, v) :: m')).data =
      '\x7b' :: (jsonDumpsMembers ((k, v) :: m') ++ ['\x7d']) from rfl]
    rw [hlen2, hpv]
    rfl

/-- C2: the macro-map codec round-trips: for every macro map `m` —
including the empty map and maps whose keys or values contain non-ASCII
Unicode characters — `_decode_macro_map(_encode_macro_map(m))` is exactly
`m` (as a JSON object with `m`'s entries in order). -/
theorem claim_C2_codec_roundtrip (m : List (String × String)) :
    decode_macro_map (encode_macro_map m) =
      Json.obj (m.map fun kv => (kv.1, Json.str kv.2)) := by
  have h1 : b64decodeOpt (b64encode (utf8Encode (json_dumps_obj m))) =
      some (utf8Encode (json_dumps_obj m)) :=
    b64decodeOpt_encode _ (utf8Encode_lt_256 _)
  have h2 : utf8Decode (utf8Encode (json_dumps_obj m)) = some (json_dumps_obj m) :=
    utf8Decode_ascii _ (fun c hc => json_dumps_obj_ascii m c hc)
  have h3 := json_loads_dumps m
  simp only [decode_macro_map, encode_macro_map, h1, h2, h3]

/-- C6: for a document consisting of `pre`, then the literal
<!-- CONFLUENCE_MACROS_START` plus newline, the payload, the literal
newline plus `CONFLUENCE_MACROS_END -->`, one newline and `post` — with
no start marker occurring earlier or in `post`, no end marker inside the
payload region, and a payload with no leading or trailing whitespace —
extraction returns exactly the payload, and removal returns `pre ++ post`:
the block plus exactly one trailing newline excised, byte-identical
elsewhere. -/
theorem claim_C6_block_precision (pre payload post : List Char)
    (h1 : ∀ p < pre.length, startMarker.isPrefixOf
        ((pre ++ (startMarker ++ (payload ++ (endMarker ++ '\n' :: post)))).drop p) = false)
    (h2 : ∀ p < payload.length, endMarker.isPrefixOf
        ((payload ++ (endMarker ++ '\n' :: post)).drop p) = false)
    (h3 : pyStripList payload = payload)
    (h4 : ∀ p < post.length, startMarker.isPrefixOf (post.drop p) = false) :
    extract_encoded_payload
        ⟨pre ++ (startMarker ++ (payload ++ (endMarker ++ '\n' :: post)))⟩ =
      some ⟨payload⟩ ∧
    remove_macro_block
        ⟨pre ++ (startMarker ++ (payload ++ (endMarker ++ '\n' :: post)))⟩ =
      ⟨pre ++ post⟩ := by
  have hsplit : splitAtFirst endMarker
      ((startMarker ++ (payload ++ (endMarker ++ '\n' :: post))).drop startMarker.length) =
      some (payload, '\n' :: post) := by
    rw [List.drop_left]
    exact splitAtFirst_at endMarker (by decide) payload ('\n' :: post) h2
  have hpre : startMarker.isPrefixOf
      (startMarker ++ (payload ++ (endMarker ++ '\n' :: post))) = true :=
    List.isPrefixOf_iff_prefix.mpr (List.prefix_append _ _)
  have hfind := findBlock_at pre _ payload ('\n' :: post) h1 hpre hsplit
  constructor
  · show (match findBlock (pre ++ (startMarker ++ (payload ++ (endMarker ++ '\n' :: post)))) with
      | none => none
      | some (_, grp, _) => some (String.mk (pyStripList grp))) = some (String.mk payload)
    rw [hfind]
    show some (String.mk (pyStripList payload)) = some (String.mk payload)
    rw [h3]
  · obtain ⟨f, hf⟩ : ∃ f,
        (pre ++ (startMarker ++ (payload ++ (endMarker ++ '\n' :: post)))).length = f + 1 := by
      refine ⟨(pre ++ (startMarker ++ (payload ++ (endMarker ++ '\n' :: post)))).length - 1, ?_⟩
      have h29 : startMarker.length = 29 := rfl
      simp [List.length_append, h29]
      omega
    show String.mk (removeBlocksAux
        (pre ++ (startMarker ++ (payload ++ (endMarker ++ '\n' :: post)))).length
        (pre ++ (startMarker ++ (payload ++ (endMarker ++ '\n' :: post))))) = _
    rw [hf]
    rw [show removeBlocksAux (f + 1)
        (pre ++ (startMarker ++ (payload ++ (endMarker ++ '\n' :: post)))) =
        (match findBlock (pre ++ (startMarker ++ (payload ++ (endMarker ++ '\n' :: post)))) with
        | none => pre ++ (startMarker ++ (payload ++ (endMarker ++ '\n' :: post)))
        | some (before, _, after) =>
          before ++ removeBlocksAux f
            (match after with | '\n' :: t => t | _ => after)) from rfl]
    rw [hfind]
    show String.mk (pre ++ removeBlocksAux f post) = _
    rw [removeBlocksAux_none post (findBlock_none post h4) f]

theorem claim_C6_block_precision_witness :
    extract_encoded_payload
        ⟨"body\n".data ++ (startMarker ++ ("e30=".data ++ (endMarker ++ '\n' :: "tail".data)))⟩ =
      some ⟨"e30=".data⟩ ∧
    remove_macro_block
        ⟨"body\n".data ++ (startMarker ++ ("e30=".data ++ (endMarker ++ '\n' :: "tail".data)))⟩ =
      ⟨"body\n".data ++ "tail".data⟩ :=
  claim_C6_block_precision "body\n".data "e30=".data "tail".data
    (by decide) (by decide) (by decide) (by decide)

/-- C9: decoding the base64 text `WzFd` — the encoding of the JSON text
`[1]` — returns the parsed array, not an empty map: `_decode_macro_map`
hands back whatever `json.loads` produced without checking its shape, so
its result is not always a placeholder-to-markup mapping. -/
theorem claim_C9_decoder_shape_unchecked :
    b64decodeOpt "WzFd" = some (utf8Encode "[1]") ∧
    decode_macro_map "WzFd" = Json.arr [Json.num 1] ∧
    ∀ members, decode_macro_map "WzFd" ≠ Json.obj members := by
  have h : decode_macro_map "WzFd" = Json.arr [Json.num 1] := rfl
  refine ⟨rfl, h, fun members hcontra => ?_⟩
  rw [h] at hcontra
  exact Json.noConfusion hcontra

/-- C3: decoding fails open to the empty dict and never signals an
error: concretely on the empty string (whose zero-byte payload is not
JSON), on `abc` (not valid base64), on `aGVsbG8=` (valid base64 of
`hello`, which is not JSON) and on `/w==` (valid base64 of a byte that is
not UTF-8); and in general a failure at any stage — base64, UTF-8 or JSON
— yields the empty dict. -/
theorem claim_C3_codec_fail_open :
    decode_macro_map "" = Json.obj [] ∧
    decode_macro_map "abc" = Json.obj [] ∧
    decode_macro_map "aGVsbG8=" = Json.obj [] ∧
    decode_macro_map "/w==" = Json.obj [] ∧
    ∀ s : String,
      (b64decodeOpt s = none ∨
        (∃ bytes, b64decodeOpt s = some bytes ∧ utf8Decode bytes = none) ∨
        (∃ bytes payload, b64decodeOpt s = some bytes ∧
          utf8Decode bytes = some payload ∧ json_loads payload = none)) →
      decode_macro_map s = Json.obj [] := by
  refine ⟨rfl, rfl, rfl, rfl, ?_⟩
  intro s h
  rcases h with h | ⟨bytes, hb, hu⟩ | ⟨bytes, payload, hb, hu, hj⟩
  · simp [decode_macro_map, h]
  · simp [decode_macro_map, hb, hu]
  · simp [decode_macro_map, hb, hu, hj]

theorem claim_C3_codec_fail_open_witness :
    decode_macro_map "abc" = Json.obj [] :=
  claim_C3_codec_fail_open.2.2.2.2 "abc" (Or.inl rfl)

theorem claim_C10_renderer_agreement_witness :
    html_to_markdown_with_macros (fun s => s)
        [Node.elem "p" [] [Node.text "Hi"], Node.text "x"] =
      (html_to_markdown (fun s => s)
        [Node.elem "p" [] [Node.text "Hi"], Node.text "x"], []) :=
  claim_C10_renderer_agreement (fun s => s)
    [Node.elem "p" [] [Node.text "Hi"], Node.text "x"] (by decide)

